import Mathlib

/-!
# Verification of the RTCP congestion-control feedback (RFC 8888) and
# application-defined packet codecs

A shallow embedding of the repository's Go code into Lean.  Byte buffers
are `List ℕ` (each entry a byte value); Go's 16-bit wrap-around
arithmetic is made explicit with `% 65536`; a Go function that can
return an error or panic is embedded as a function into `GoR α`.
-/

namespace Rtcp

/-- The distinct error values surfaced by the codec (each Go `errors.New`
value is one constructor). -/
inductive Err where
  | packetTooShort
  | badVersion
  | invalidHeader
  | reportBlockLength
  | incorrectNumReports
  | metricBlockLength
  | tooManyReports
  | invalidSizeOrStartIndex
  | invalidBits
  | appDefinedInvalidLength
  | appDefinedDataTooLarge
  | appDefinedInvalidName
  | wrongPadding
  deriving DecidableEq, Repr

/-- Outcome of running a Go function: a normal result, a returned error,
a runtime panic (out-of-range slice index), or an infinite loop. -/
inductive GoR (α : Type) where
  | panic : GoR α
  | loops : GoR α
  | err : Err → GoR α
  | ok : α → GoR α
  deriving DecidableEq, Repr

namespace GoR

def bind : GoR α → (α → GoR β) → GoR β
  | .panic, _ => .panic
  | .loops, _ => .loops
  | .err e, _ => .err e
  | .ok a, f => f a

instance : Monad GoR where
  pure := .ok
  bind := bind

/-- `isOk` holds exactly of a successful result. -/
def isOk : GoR α → Prop
  | .ok _ => True
  | _ => False

instance : ∀ r : GoR α, Decidable (isOk r)
  | .ok _ => .isTrue trivial
  | .panic => .isFalse id
  | .loops => .isFalse id
  | .err _ => .isFalse id

@[simp] theorem bind_ok (a : α) (f : α → GoR β) : bind (.ok a) f = f a := rfl

@[simp] theorem bind_err (e : Err) (f : α → GoR β) : bind (.err e) f = .err e := rfl

@[simp] theorem bind_panic (f : α → GoR β) : bind (.panic : GoR α) f = .panic := rfl

@[simp] theorem bind_loops (f : α → GoR β) : bind (.loops : GoR α) f = .loops := rfl

end GoR

/-! ## Byte-buffer primitives

Big-endian reads and writes as performed by `encoding/binary`, and the
semantics of Go's `copy` into a sub-slice. -/

/-- The two bytes written by `binary.BigEndian.PutUint16`. -/
def u16be (v : ℕ) : List ℕ := [v / 256 % 256, v % 256]

/-- The four bytes written by `binary.BigEndian.PutUint32`. -/
def u32be (v : ℕ) : List ℕ :=
  [v / 16777216 % 256, v / 65536 % 256, v / 256 % 256, v % 256]

/-- `binary.BigEndian.Uint16(buf[off:])` (callers establish the bounds). -/
def readU16 (l : List ℕ) (off : ℕ) : ℕ := l.getD off 0 * 256 + l.getD (off + 1) 0

/-- `binary.BigEndian.Uint32(buf[off:])` (callers establish the bounds). -/
def readU32 (l : List ℕ) (off : ℕ) : ℕ :=
  ((l.getD off 0 * 256 + l.getD (off + 1) 0) * 256 + l.getD (off + 2) 0) * 256
    + l.getD (off + 3) 0

/-- Overwrite `buf` starting at index `off` with the bytes of `src`,
dropping whatever does not fit (`List.set` past the end is the identity,
matching `copy` truncating at the end of the destination). -/
def storeBytes : List ℕ → ℕ → List ℕ → List ℕ
  | buf, _, [] => buf
  | buf, off, b :: rest => storeBytes (buf.set off b) (off + 1) rest

/-- `copy(buf[off:], src)`: taking the sub-slice panics when `off` lies
beyond the buffer, otherwise `copy` truncates silently. -/
def copyAt (buf : List ℕ) (off : ℕ) (src : List ℕ) : GoR (List ℕ) :=
  if buf.length < off then .panic else .ok (storeBytes buf off src)

/-- `binary.BigEndian.PutUint16(buf[off:], v)`: panics unless two bytes
are available at `off`. -/
def putU16 (buf : List ℕ) (off v : ℕ) : GoR (List ℕ) :=
  if buf.length < off + 2 then .panic else .ok (storeBytes buf off (u16be v))

/-- `binary.BigEndian.PutUint32(buf[off:], v)`: panics unless four bytes
are available at `off`. -/
def putU32 (buf : List ℕ) (off v : ℕ) : GoR (List ℕ) :=
  if buf.length < off + 4 then .panic else .ok (storeBytes buf off (u32be v))

/-- `rawPacket[lo:hi]` on a slice whose capacity equals its length:
panics unless `lo ≤ hi ≤ len`. -/
def goSlice (buf : List ℕ) (lo hi : ℕ) : GoR (List ℕ) :=
  if lo ≤ hi ∧ hi ≤ buf.length then .ok ((buf.drop lo).take (hi - lo)) else .panic

/-! ## Bit-field packer -/

/-- Modelled from the spec: the bit-field packer `setNBitsOfUint16`
(`util.go` is not under `src/`).  §4.1: writes `val` (which must fit in
`size` bits, else a range error) into the span of `size` bits starting
`startIndex` bits from the most significant bit of the 16-bit word
`src`, leaving the other bits untouched. -/
def setNBitsOfUint16 (src size startIndex val : ℕ) : GoR ℕ :=
  if startIndex + size > 16 then .err .invalidSizeOrStartIndex
  else if val ≥ 2 ^ size then .err .invalidBits
  else .ok (src ||| val <<< (16 - size - startIndex))

/-! ## CCFeedbackMetricBlock (rfc8888.go) -/

/-- One 16-bit bit-packed feedback entry.  `ECN` is a Go `uint8` and
`ArrivalTimeOffset` a Go `uint16`; both are embedded as `ℕ` (the typed
bounds appear as hypotheses where they matter). -/
structure CCFeedbackMetricBlock where
  Received : Bool
  ECN : ℕ
  ArrivalTimeOffset : ℕ
  deriving DecidableEq, Repr

/-- `CCFeedbackMetricBlock.marshal`: packs the received flag, the ECN
bits and the arrival-time offset into one big-endian 16-bit word. -/
def CCFeedbackMetricBlock.marshal (b : CCFeedbackMetricBlock) : GoR (List ℕ) := do
  let r : ℕ := if b.Received then 1 else 0
  let dst ← setNBitsOfUint16 0 1 0 r
  let dst ← setNBitsOfUint16 dst 2 1 b.ECN
  let dst ← setNBitsOfUint16 dst 13 3 b.ArrivalTimeOffset
  pure (u16be dst)

/-- `CCFeedbackMetricBlock.unmarshal`: requires exactly two bytes; the
top bit decides `Received`, and when it is clear the remaining bits are
discarded. -/
def CCFeedbackMetricBlock.unmarshal (rawPacket : List ℕ) : GoR CCFeedbackMetricBlock :=
  if rawPacket.length ≠ 2 then .err .metricBlockLength
  else
    let b0 := rawPacket.getD 0 0
    if b0 &&& 0x80 ≠ 0 then
      .ok ⟨true, b0 >>> 5 &&& 0x03, readU16 rawPacket 0 &&& 0x1FFF⟩
    else
      .ok ⟨false, 0, 0⟩

/-! ## CCFeedbackReportBlock (rfc8888.go) -/

/-- One per-stream feedback report block. -/
structure CCFeedbackReportBlock where
  MediaSSRC : ℕ
  BeginSequence : ℕ
  MetricBlocks : List CCFeedbackMetricBlock
  deriving DecidableEq, Repr

/-- `CCFeedbackReportBlock.Len`: `reportsOffset + 2*uint16(n)` with the
metric count rounded up to the next even number, computed in Go `uint16`
arithmetic. -/
def CCFeedbackReportBlock.Len (b : CCFeedbackReportBlock) : ℕ :=
  let n := b.MetricBlocks.length
  let n := if n % 2 ≠ 0 then n + 1 else n
  (8 + 2 * (n % 65536)) % 65536

/-- The metric-writing loop inside `CCFeedbackReportBlock.marshal`:
`copy(buf[reportsOffset+i*2:], blockBytes)` for each metric block. -/
def marshalMetricLoop (buf : List ℕ) (i : ℕ) :
    List CCFeedbackMetricBlock → GoR (List ℕ)
  | [] => .ok buf
  | mb :: rest => do
    let bytes ← mb.marshal
    let buf ← copyAt buf (8 + i * 2) bytes
    marshalMetricLoop buf (i + 1) rest

/-- `CCFeedbackReportBlock.marshal`: rejects more than `maxMetricBlocks`
(16384) metric blocks, then writes SSRC, begin sequence, metric count
and the metric blocks into a buffer of `b.Len()` zero bytes. -/
def CCFeedbackReportBlock.marshal (b : CCFeedbackReportBlock) : GoR (List ℕ) :=
  if b.MetricBlocks.length > 16384 then .err .tooManyReports
  else do
    let buf := List.replicate b.Len 0
    let buf ← putU32 buf 0 b.MediaSSRC
    let buf ← putU16 buf 4 b.BeginSequence
    let buf ← putU16 buf 6 (b.MetricBlocks.length % 65536)
    marshalMetricLoop buf 0 b.MetricBlocks

/-- The metric-reading loop inside `CCFeedbackReportBlock.unmarshal`:
`rest` counts the iterations still to run (the loop runs for
`i = 0, ..., numReports-1`); `i` is a Go `uint16`, so the slice bounds
`reportsOffset + 2*i` and the end index wrap at 2^16. -/
def unmarshalMetricLoop (rawPacket : List ℕ) :
    ℕ → ℕ → List CCFeedbackMetricBlock → GoR (List CCFeedbackMetricBlock)
  | _, 0, acc => .ok acc
  | i, rest + 1, acc =>
    let offset := (8 + 2 * i) % 65536
    let hi := (offset + 2) % 65536
    match goSlice rawPacket offset hi with
    | .panic => .panic
    | .loops => .loops
    | .err e => .err e
    | .ok piece =>
      match CCFeedbackMetricBlock.unmarshal piece with
      | .panic => .panic
      | .loops => .loops
      | .err e => .err e
      | .ok mb => unmarshalMetricLoop rawPacket (i + 1) rest (acc ++ [mb])

/-- `CCFeedbackReportBlock.unmarshal`: note that the short-buffer guard
compares against `int(reportsOffset + numReports*2)` where the sum is a
Go `uint16`, so it wraps at 2^16. -/
def CCFeedbackReportBlock.unmarshal (rawPacket : List ℕ) : GoR CCFeedbackReportBlock :=
  if rawPacket.length < 8 then .err .reportBlockLength
  else
    let mediaSSRC := readU32 rawPacket 0
    let beginSequence := readU16 rawPacket 4
    let numReports := readU16 rawPacket 6
    if rawPacket.length < (8 + numReports * 2) % 65536 then .err .incorrectNumReports
    else do
      let mbs ← unmarshalMetricLoop rawPacket 0 numReports []
      pure ⟨mediaSSRC, beginSequence, mbs⟩

/-! ## Common RTCP header -/

/-- The common RTCP header.  The Go field `Type` is embedded as
`PacketType` (`Type` is reserved in Lean). -/
structure Header where
  Padding : Bool
  Count : ℕ
  PacketType : ℕ
  Length : ℕ
  deriving DecidableEq, Repr

/-- Modelled from the spec: the header encoder (`header.go` is not under
`src/`).  §4.2: writes the constant version 2, the padding bit, the
5-bit count/subtype (rejecting values above 31 with an invalid-header
error, cf. §4.3 step 1 and the `InvalidSubType` test), the packet-type
byte and the big-endian 16-bit length-in-words field. -/
def Header.Marshal (h : Header) : GoR (List ℕ) :=
  if h.Count > 31 then .err .invalidHeader
  else .ok [2 <<< 6 ||| (if h.Padding then 1 else 0) <<< 5 ||| h.Count,
            h.PacketType % 256, h.Length / 256 % 256, h.Length % 256]

/-- Modelled from the spec: the header decoder (`header.go` is not under
`src/`).  §4.2/§3: requires the fixed four bytes, rejects a version
other than 2, and parses padding bit, count, packet type and length.
No header-length/buffer-length cross-check happens here: §4.6 states
that for the feedback report the caller-supplied slice length is
authoritative, and the application-defined tests expect the length
mismatch to surface as that packet's own error. -/
def Header.Unmarshal (rawPacket : List ℕ) : GoR Header :=
  if rawPacket.length < 4 then .err .packetTooShort
  else
    let b0 := rawPacket.getD 0 0
    if b0 >>> 6 ≠ 2 then .err .badVersion
    else .ok ⟨b0 >>> 5 &&& 1 = 1, b0 &&& 31, rawPacket.getD 1 0, readU16 rawPacket 2⟩

/-! ## CCFeedbackReport (rfc8888.go) -/

/-- The top-level congestion-control feedback report packet. -/
structure CCFeedbackReport where
  Header : Header
  SenderSSRC : ℕ
  ReportBlocks : List CCFeedbackReportBlock
  ReportTimestamp : ℕ
  deriving DecidableEq, Repr

/-- `CCFeedbackReport.Len`: sums the block lengths in Go `uint16`
arithmetic and adds the fixed 8-byte prefix and 4-byte timestamp. -/
def CCFeedbackReport.Len (b : CCFeedbackReport) : ℕ :=
  let n := b.ReportBlocks.foldl (fun acc blk => (acc + blk.Len) % 65536) 0
  (8 + n + 4) % 65536

/-- The block-writing loop inside `CCFeedbackReport.Marshal`: marshals
each block, copies it at `offset` and advances `offset` (a Go `uint16`)
by the block's `Len()`.  Returns the buffer and the final offset. -/
def reportMarshalLoop (buf : List ℕ) (offset : ℕ) :
    List CCFeedbackReportBlock → GoR (List ℕ × ℕ)
  | [] => .ok (buf, offset)
  | blk :: rest => do
    let bytes ← blk.marshal
    let buf ← copyAt buf offset bytes
    reportMarshalLoop buf ((offset + blk.Len) % 65536) rest

/-- `CCFeedbackReport.Marshal`: marshals the stored header into a buffer
of `b.Len()` zero bytes, then the sender SSRC, the report blocks and the
trailing timestamp at the final offset. -/
def CCFeedbackReport.Marshal (b : CCFeedbackReport) : GoR (List ℕ) := do
  let header ← b.Header.Marshal
  let buf := List.replicate b.Len 0
  let buf ← if buf.length < 4 then (.panic : GoR (List ℕ))
            else .ok (storeBytes buf 0 header)
  let buf ← putU32 buf 4 b.SenderSSRC
  let res ← reportMarshalLoop buf 8 b.ReportBlocks
  let buf ← putU32 res.1 res.2 b.ReportTimestamp
  pure buf

/-- The block-reading loop inside `CCFeedbackReport.Unmarshal`: while
`offset < reportTimestampOffset`, unmarshal one block from
`rawPacket[offset:]` and advance `offset` (a Go `uint16`) by the decoded
block's `Len()`.  The offset lives in `[0, 2^16)`, so if the loop runs
for more than 2^16 iterations an offset has repeated and the Go loop
runs forever; the fuel therefore exactly separates termination from
divergence (`.loops`). -/
def reportUnmarshalLoop (rawPacket : List ℕ) (tsOff : ℕ) :
    ℕ → ℕ → List CCFeedbackReportBlock → GoR (List CCFeedbackReportBlock)
  | 0, _, _ => .loops
  | fuel + 1, offset, acc =>
    if offset < tsOff then
      match goSlice rawPacket offset rawPacket.length with
      | .panic => .panic
      | .loops => .loops
      | .err e => .err e
      | .ok sub =>
        match CCFeedbackReportBlock.unmarshal sub with
        | .panic => .panic
        | .loops => .loops
        | .err e => .err e
        | .ok blk =>
          reportUnmarshalLoop rawPacket tsOff fuel ((offset + blk.Len) % 65536)
            (acc ++ [blk])
    else .ok acc

/-- `CCFeedbackReport.Unmarshal`: requires at least 12 bytes, parses the
header and sender SSRC, reads the timestamp at `uint16(len - 4)`, and
runs the block loop from offset 8. -/
def CCFeedbackReport.Unmarshal (rawPacket : List ℕ) : GoR CCFeedbackReport :=
  if rawPacket.length < 12 then .err .packetTooShort
  else do
    let hdr ← Header.Unmarshal rawPacket
    let senderSSRC := readU32 rawPacket 4
    let tsOff := (rawPacket.length - 4) % 65536
    let ts := readU32 rawPacket tsOff
    let blocks ← reportUnmarshalLoop rawPacket tsOff 65537 8 []
    pure ⟨hdr, senderSSRC, blocks, ts⟩

/-! ## ApplicationDefined packet -/

/-- Modelled from the spec: the application-defined packet
(`application_defined.go` is not under `src/`; only its tests are).
This is the layout exercised by `src/application_packet_test.go`: a
single SSRC, a fixed 4-byte name and an opaque data payload. -/
structure ApplicationDefined where
  SSRC : ℕ
  Name : List ℕ
  Data : List ℕ
  deriving DecidableEq, Repr

/-- Modelled from the spec: §4.3 encode — the overall padded size
`12 + len(data) + padding`. -/
def ApplicationDefined.MarshalSize (a : ApplicationDefined) : ℕ :=
  12 + a.Data.length + (4 - a.Data.length % 4) % 4

/-- Modelled from the spec: §4.3 encode (`application_defined.go` is not
under `src/`).  Validates the 4-byte name and the 16-bit total-length
budget, then emits header (padding bit set iff padding is added; length
field `total/4 - 1`), SSRC, name, data and padding bytes each holding
the padding count, matching the test vectors `03 03 03`. -/
def ApplicationDefined.Marshal (a : ApplicationDefined) : GoR (List ℕ) := do
  if a.Name.length ≠ 4 then GoR.err .appDefinedInvalidName
  else
    let padding := (4 - a.Data.length % 4) % 4
    let total := 12 + a.Data.length + padding
    if total > 65535 then GoR.err .appDefinedDataTooLarge
    else do
      let hdr ← Header.Marshal ⟨decide (0 < padding), 0, 204, total / 4 - 1⟩
      pure (hdr ++ u32be a.SSRC ++ a.Name ++ a.Data ++ List.replicate padding padding)

/-- Modelled from the spec: §4.3 decode (`application_defined.go` is not
under `src/`).  Requires 12 bytes (else too-short, per the
`invalidPacketLengthTooShort` test), parses the header, rejects a length
field inconsistent with the buffer (per the
`invalidAppPacketLengthField` test), then reads SSRC, name and data,
stripping padding when the padding flag is set and rejecting a padding
count larger than the data region (per the `wrongPaddingSize` test). -/
def ApplicationDefined.Unmarshal (rawPacket : List ℕ) : GoR ApplicationDefined :=
  if rawPacket.length < 12 then .err .packetTooShort
  else do
    let hdr ← Header.Unmarshal rawPacket
    if 4 * (hdr.Length + 1) ≠ rawPacket.length then GoR.err .appDefinedInvalidLength
    else
      let ssrc := readU32 rawPacket 4
      let name := (rawPacket.drop 8).take 4
      let dataRegion := rawPacket.drop 12
      if hdr.Padding then
        let p := rawPacket.getD (rawPacket.length - 1) 0
        if dataRegion.length < p then GoR.err .wrongPadding
        else GoR.ok ⟨ssrc, name, dataRegion.take (dataRegion.length - p)⟩
      else GoR.ok ⟨ssrc, name, dataRegion⟩

/-! ## Arithmetic helper lemmas -/

/-- Bitwise or of disjoint spans is addition: if the low `n` bits of `a`
are clear and `b` fits in `n` bits then `a ||| b = a + b`. -/
theorem lor_eq_add_of_mod (n a b : ℕ) (ha : a % 2 ^ n = 0) (hb : b < 2 ^ n) :
    a ||| b = a + b := by
  obtain ⟨c, rfl⟩ := Nat.dvd_of_mod_eq_zero ha
  apply Nat.eq_of_testBit_eq
  intro j
  rw [Nat.testBit_lor, Nat.testBit_mul_pow_two_add c hb j, Nat.testBit_mul_pow_two]
  rcases Nat.lt_or_ge j n with h | h
  · simp [h, Nat.not_le_of_lt h]
  · have hbj : b.testBit j = false :=
      Nat.testBit_lt_two_pow (lt_of_lt_of_le hb (Nat.pow_le_pow_right (by norm_num) h))
    simp [h, Nat.not_lt_of_le h, hbj]

theorem and_top_bit_set : ∀ x < 128, (128 + x) &&& 128 = 128 := by decide

theorem and_top_bit_clear : ∀ x < 128, x &&& 128 = 0 := by decide

/-- Closed form of `CCFeedbackMetricBlock.marshal` for in-range fields:
the emitted word always carries the stored ECN and offset bits, whether
or not `Received` is set. -/
theorem metric_marshal_eq (recv : Bool) (e o : ℕ) (he : e < 4) (ho : o < 8192) :
    CCFeedbackMetricBlock.marshal ⟨recv, e, o⟩ =
      .ok [(if recv then 1 else 0) * 128 + e * 32 + o / 256, o % 256] := by
  have hr : (if recv then (1 : ℕ) else 0) ≤ 1 := by cases recv <;> simp
  simp only [CCFeedbackMetricBlock.marshal, setNBitsOfUint16]
  have h1 : ¬ (if recv then (1 : ℕ) else 0) ≥ 2 ^ 1 := by omega
  have h2 : ¬ e ≥ 2 ^ 2 := by omega
  have h3 : ¬ o ≥ 2 ^ 13 := by omega
  simp only [show ¬ (0 + 1 > 16) by omega, show ¬ (1 + 2 > 16) by omega,
    show ¬ (3 + 13 > 16) by omega, h1, h2, h3, if_false, if_true, ite_false,
    GoR.bind_ok, bind, GoR.bind_ok, pure]
  have e1 : (0 : ℕ) ||| (if recv then (1 : ℕ) else 0) <<< (16 - 1 - 0)
      = (if recv then (1 : ℕ) else 0) * 32768 := by
    rw [Nat.zero_or, Nat.shiftLeft_eq]
  rw [e1]
  have e2 : (if recv then (1 : ℕ) else 0) * 32768 ||| e <<< (16 - 2 - 1)
      = (if recv then (1 : ℕ) else 0) * 32768 + e * 8192 := by
    rw [Nat.shiftLeft_eq, show (16 - 2 - 1) = 13 from rfl,
      lor_eq_add_of_mod 15 _ _ (by omega) (by omega)]
  rw [e2]
  have e3 : (if recv then (1 : ℕ) else 0) * 32768 + e * 8192 ||| o <<< (16 - 13 - 3)
      = (if recv then (1 : ℕ) else 0) * 32768 + e * 8192 + o := by
    rw [Nat.shiftLeft_eq, show (16 - 13 - 3) = 0 from rfl,
      lor_eq_add_of_mod 13 _ _ (by omega) (by omega)]
    omega
  rw [e3]
  simp only [u16be, GoR.ok.injEq, List.cons.injEq, and_true]
  constructor
  · omega
  · omega

/-- Decoding the word emitted for a received metric block recovers the
ECN bits and the 13-bit offset exactly. -/
theorem metric_unmarshal_received (e o : ℕ) (he : e < 4) (ho : o < 8192) :
    CCFeedbackMetricBlock.unmarshal [128 + e * 32 + o / 256, o % 256] = .ok ⟨true, e, o⟩ := by
  have hx : e * 32 + o / 256 < 128 := by omega
  simp only [CCFeedbackMetricBlock.unmarshal, List.length_cons, List.length_nil, readU16,
    List.getD, List.get?, Option.getD]
  rw [if_neg (by omega)]
  rw [show 128 + e * 32 + o / 256 = 128 + (e * 32 + o / 256) from by omega]
  rw [and_top_bit_set _ hx]
  rw [if_pos (by omega)]
  have hecn : (128 + (e * 32 + o / 256)) >>> 5 &&& 0x03 = e := by
    rw [Nat.shiftRight_eq_div_pow, show (0x03 : ℕ) = 2 ^ 2 - 1 from rfl,
      Nat.and_pow_two_sub_one_eq_mod]
    omega
  have hato : ((128 + (e * 32 + o / 256)) * 256 + o % 256) &&& 0x1FFF = o := by
    rw [show (0x1FFF : ℕ) = 2 ^ 13 - 1 from rfl, Nat.and_pow_two_sub_one_eq_mod]
    omega
  rw [hecn, hato]

/-- Decoding any two bytes whose top bit is clear yields the all-zero
non-received block. -/
theorem metric_unmarshal_not_received (b0 b1 : ℕ) (h0 : b0 < 128) :
    CCFeedbackMetricBlock.unmarshal [b0, b1] = .ok ⟨false, 0, 0⟩ := by
  simp only [CCFeedbackMetricBlock.unmarshal, List.length_cons, List.length_nil,
    List.getD, List.get?, Option.getD]
  rw [if_neg (by omega), and_top_bit_clear _ h0, if_neg (by omega)]

/-- A metric block whose ECN exceeds 2 bits or whose offset exceeds 13
bits makes the bit packer return its range error. -/
theorem metric_marshal_err (recv : Bool) (e o : ℕ) (h : 4 ≤ e ∨ 8192 ≤ o) :
    CCFeedbackMetricBlock.marshal ⟨recv, e, o⟩ = .err .invalidBits := by
  simp only [CCFeedbackMetricBlock.marshal, setNBitsOfUint16]
  rw [if_neg (by omega), if_neg (by cases recv <;> simp)]
  simp only [GoR.bind_ok, bind]
  rcases h with h | h
  · rw [if_neg (by omega), if_pos (by omega)]
    rfl
  · rw [if_neg (by omega)]
    by_cases he : e ≥ 2 ^ 2
    · rw [if_pos he]
      rfl
    · rw [if_neg he]
      simp only [GoR.bind_ok]
      rw [if_neg (by omega), if_pos (by omega)]
      rfl

/-! ## Claim theorems: metric block -/

/-- C1: for every received metric block with one of the 4 ECN values and
a 13-bit arrival-time offset, marshalling then unmarshalling the two
emitted bytes reproduces exactly the same (Received, ECN,
ArrivalTimeOffset) triple; and every 2-byte input whose top bit is clear
unmarshals to Received = false, ECN = 0 and ArrivalTimeOffset = 0
regardless of the remaining 15 bits. -/
theorem C1_metric_block_bit_packing_roundtrip :
    (∀ e o : ℕ, e < 4 → o < 8192 →
      (CCFeedbackMetricBlock.marshal ⟨true, e, o⟩).bind CCFeedbackMetricBlock.unmarshal
        = .ok ⟨true, e, o⟩) ∧
    (∀ b0 b1 : ℕ, b0 < 128 → b1 < 256 →
      CCFeedbackMetricBlock.unmarshal [b0, b1] = .ok ⟨false, 0, 0⟩) := by
  constructor
  · intro e o he ho
    rw [metric_marshal_eq true e o he ho]
    simp only [if_true, one_mul, GoR.bind_ok]
    exact metric_unmarshal_received e o he ho
  · intro b0 b1 h0 _
    exact metric_unmarshal_not_received b0 b1 h0

/-- Witness for C1 at ECN = 2, offset = 1000 and at the non-received
input bytes (0x23, 0x99). -/
theorem C1_metric_block_bit_packing_roundtrip_witness :
    ((CCFeedbackMetricBlock.marshal ⟨true, 2, 1000⟩).bind CCFeedbackMetricBlock.unmarshal
        = .ok ⟨true, 2, 1000⟩) ∧
    CCFeedbackMetricBlock.unmarshal [0x23, 0x99] = .ok ⟨false, 0, 0⟩ :=
  ⟨C1_metric_block_bit_packing_roundtrip.1 2 1000 (by norm_num) (by norm_num),
   C1_metric_block_bit_packing_roundtrip.2 0x23 0x99 (by norm_num) (by norm_num)⟩

/-- C5 counterexample: a non-received metric block with a nonzero stored
ECN marshals successfully, and the emitted bytes are 0x20 0x00, not the
claimed 0x00 0x00 — marshal does not zero the ECN/offset bits when
Received is false. -/
theorem C5_counterexample_not_received_bits_kept :
    CCFeedbackMetricBlock.marshal ⟨false, 1, 0⟩ = .ok [0x20, 0x00] ∧
    ([0x20, 0x00] : List ℕ) ≠ [0x00, 0x00] := by
  constructor
  · decide
  · decide

/-- C5 amended: for a metric block with Received = false (and in-range
fields, so that marshal succeeds), the emitted word has the received bit
clear but carries the stored ECN in bits 1–2 and the stored
ArrivalTimeOffset in bits 3–15; it is 0x00 0x00 only when those stored
fields are zero. -/
theorem C5_amended_not_received_keeps_stored_bits (e o : ℕ) (he : e < 4) (ho : o < 8192) :
    CCFeedbackMetricBlock.marshal ⟨false, e, o⟩ = .ok [e * 32 + o / 256, o % 256] := by
  have h := metric_marshal_eq false e o he ho
  simpa using h

/-- Witness for the amended C5 at ECN = 3, offset = 700. -/
theorem C5_amended_not_received_keeps_stored_bits_witness :
    CCFeedbackMetricBlock.marshal ⟨false, 3, 700⟩ = .ok [3 * 32 + 700 / 256, 700 % 256] :=
  C5_amended_not_received_keeps_stored_bits 3 700 (by norm_num) (by norm_num)

/-- C10: metric-block marshalling fails (with the bit packer's range
error) exactly when the stored ECN exceeds 3 or the stored
ArrivalTimeOffset exceeds 8191 — the received flag plays no role in the
check — and succeeds on every other block. -/
theorem C10_metric_marshal_range_check :
    ∀ b : CCFeedbackMetricBlock,
      (b.marshal = .err .invalidBits ∨ ∃ buf, b.marshal = .ok buf) ∧
      (b.marshal = .err .invalidBits ↔ 4 ≤ b.ECN ∨ 8192 ≤ b.ArrivalTimeOffset) := by
  rintro ⟨recv, e, o⟩
  by_cases he : e < 4
  · by_cases ho : o < 8192
    · rw [metric_marshal_eq recv e o he ho]
      refine ⟨Or.inr ⟨_, rfl⟩, ?_⟩
      simp only [show ¬ (4 ≤ e) by omega, show ¬ (8192 ≤ o) by omega, or_self,
        iff_false]
      intro h
      exact GoR.noConfusion h
    · rw [metric_marshal_err recv e o (Or.inr (by omega))]
      exact ⟨Or.inl rfl, by simp; omega⟩
  · rw [metric_marshal_err recv e o (Or.inl (by omega))]
    exact ⟨Or.inl rfl, by simp; omega⟩

/-! ## Claim theorems: concrete inputs -/

/-- C3 (failing input): a 12-byte report-block buffer declaring
`num_reports = 0x8000`.  In exact arithmetic the buffer holds far fewer
than `8 + 2*count` bytes, so the claim requires the incorrect-num-reports
error; but the guard computes `reportsOffset + numReports*2` in Go
`uint16` arithmetic, which wraps to 8, so the check passes and the
metric loop then panics on an out-of-range slice. -/
theorem C3_count_check_uint16_overflow_panics :
    CCFeedbackReportBlock.unmarshal [0, 0, 0, 0, 0, 0, 0x80, 0x00, 1, 2, 3, 4] = .panic ∧
    readU16 [0, 0, 0, 0, 0, 0, 0x80, 0x00, 1, 2, 3, 4] 6 = 32768 ∧
    ([0, 0, 0, 0, 0, 0, 0x80, 0x00, 1, 2, 3, 4] : List ℕ).length < 8 + 32768 * 2 ∧
    (8 + 32768 * 2) % 65536 = 8 := by
  exact ⟨by decide, by decide, by decide, by decide⟩

/-- C8: the 16-byte application-defined packet
`80 cc 00 03 / 4b aa e1 ab / "SUIT" / 41 42 43 44` unmarshals to
SSRC 0x4baae1ab, name "SUIT", data [0x41,0x42,0x43,0x44], and
marshalling that value reproduces the identical 16 bytes. -/
theorem C8_application_defined_suit_roundtrip :
    ApplicationDefined.Unmarshal
        [0x80, 0xcc, 0x00, 0x03, 0x4b, 0xaa, 0xe1, 0xab,
         0x53, 0x55, 0x49, 0x54, 0x41, 0x42, 0x43, 0x44]
      = .ok ⟨0x4baae1ab, [0x53, 0x55, 0x49, 0x54], [0x41, 0x42, 0x43, 0x44]⟩ ∧
    ApplicationDefined.Marshal ⟨0x4baae1ab, [0x53, 0x55, 0x49, 0x54], [0x41, 0x42, 0x43, 0x44]⟩
      = .ok [0x80, 0xcc, 0x00, 0x03, 0x4b, 0xaa, 0xe1, 0xab,
             0x53, 0x55, 0x49, 0x54, 0x41, 0x42, 0x43, 0x44] := by
  exact ⟨by decide, by decide⟩

/-! ## Buffer lemmas -/

theorem storeBytes_length (src : List ℕ) :
    ∀ buf off, (storeBytes buf off src).length = buf.length := by
  induction src with
  | nil => intro buf off; rfl
  | cons b rest ih =>
    intro buf off
    rw [storeBytes, ih, List.length_set]

theorem storeBytes_append (src : List ℕ) :
    ∀ (a b : List ℕ) (off : ℕ), a.length ≤ off →
      storeBytes (a ++ b) off src = a ++ storeBytes b (off - a.length) src := by
  induction src with
  | nil => intro a b off _; rfl
  | cons s rest ih =>
    intro a b off hoff
    rw [storeBytes, List.set_append_right _ _ hoff, ih _ _ _ (by omega), storeBytes,
      show off + 1 - a.length = off - a.length + 1 by omega]

theorem storeBytes_eq_append (src : List ℕ) :
    ∀ buf : List ℕ, src.length ≤ buf.length →
      storeBytes buf 0 src = src ++ buf.drop src.length := by
  induction src with
  | nil => intro buf _; simp [storeBytes]
  | cons s rest ih =>
    intro buf hlen
    match buf with
    | [] => simp at hlen
    | b :: bs =>
      rw [storeBytes, show (b :: bs).set 0 s = [s] ++ bs from rfl,
        storeBytes_append rest [s] bs 1 (by simp)]
      simp only [List.length_singleton, Nat.sub_self]
      rw [ih bs (by simpa using hlen)]
      simp

/-- Writing `src` wholly inside `buf` splices it between the untouched
prefix and suffix. -/
theorem storeBytes_split (src buf : List ℕ) (off : ℕ)
    (h : off + src.length ≤ buf.length) :
    storeBytes buf off src = buf.take off ++ src ++ buf.drop (off + src.length) := by
  have hofflen : off ≤ buf.length := by omega
  have hl : (buf.take off).length = off := by
    simp [Nat.min_eq_left hofflen]
  calc storeBytes buf off src
      = storeBytes (buf.take off ++ buf.drop off) off src := by
        rw [List.take_append_drop]
    _ = buf.take off ++ storeBytes (buf.drop off) 0 src := by
        rw [storeBytes_append src _ _ off (by omega)]
        rw [hl, Nat.sub_self]
    _ = buf.take off ++ (src ++ (buf.drop off).drop src.length) := by
        rw [storeBytes_eq_append src _ (by simp; omega)]
    _ = buf.take off ++ src ++ buf.drop (off + src.length) := by
        rw [List.drop_drop, List.append_assoc]

theorem getD_middle (v : ℕ) (A B : List ℕ) (j : ℕ) :
    (A ++ B).getD (A.length + j) v = B.getD j v := by
  rw [List.getD_append_right _ _ _ _ (by omega), Nat.add_sub_cancel_left]

theorem readU16_middle (a v : ℕ) (A B : List ℕ) (hA : A.length = a) :
    readU16 (A ++ (u16be v ++ B)) a = v % 65536 := by
  subst hA
  have h0 : (A ++ (u16be v ++ B)).getD A.length 0 = v / 256 % 256 := by
    rw [List.getD_append_right _ _ _ _ (le_refl _), Nat.sub_self]
    simp [u16be, List.getD]
  have h1 : (A ++ (u16be v ++ B)).getD (A.length + 1) 0 = v % 256 := by
    rw [List.getD_append_right _ _ _ _ (by omega),
      show A.length + 1 - A.length = 1 by omega]
    simp [u16be, List.getD]
  rw [readU16, h0, h1]
  omega

theorem readU32_middle (a v : ℕ) (A B : List ℕ) (hA : A.length = a) :
    readU32 (A ++ (u32be v ++ B)) a = v % 4294967296 := by
  subst hA
  have h0 : (A ++ (u32be v ++ B)).getD A.length 0 = v / 16777216 % 256 := by
    rw [List.getD_append_right _ _ _ _ (le_refl _), Nat.sub_self]
    simp [u32be, List.getD]
  have h1 : (A ++ (u32be v ++ B)).getD (A.length + 1) 0 = v / 65536 % 256 := by
    rw [List.getD_append_right _ _ _ _ (by omega),
      show A.length + 1 - A.length = 1 by omega]
    simp [u32be, List.getD]
  have h2 : (A ++ (u32be v ++ B)).getD (A.length + 2) 0 = v / 256 % 256 := by
    rw [List.getD_append_right _ _ _ _ (by omega),
      show A.length + 2 - A.length = 2 by omega]
    simp [u32be, List.getD]
  have h3 : (A ++ (u32be v ++ B)).getD (A.length + 3) 0 = v % 256 := by
    rw [List.getD_append_right _ _ _ _ (by omega),
      show A.length + 3 - A.length = 3 by omega]
    simp [u32be, List.getD]
  rw [readU32, h0, h1, h2, h3]
  omega

theorem getD_take_eq (l : List ℕ) (n i : ℕ) (h : i < n) :
    (l.take n).getD i 0 = l.getD i 0 := by
  rw [List.getD_eq_getElem?_getD, List.getD_eq_getElem?_getD,
    List.getElem?_take_of_lt h]

/-- Any 2-byte buffer unmarshals to some metric block. -/
theorem metric_unmarshal_ok_of_two (piece : List ℕ) (h : piece.length = 2) :
    ∃ mb, CCFeedbackMetricBlock.unmarshal piece = .ok mb := by
  rw [CCFeedbackMetricBlock.unmarshal, if_neg (by omega)]
  by_cases hb : piece.getD 0 0 &&& 0x80 ≠ 0
  · rw [if_pos hb]; exact ⟨_, rfl⟩
  · rw [if_neg hb]; exact ⟨_, rfl⟩

/-! ## Report-block wire characterization -/

/-- In-range metric fields: exactly the blocks the bit packer accepts. -/
def MetricOK (mb : CCFeedbackMetricBlock) : Prop :=
  mb.ECN < 4 ∧ mb.ArrivalTimeOffset < 8192

instance (mb : CCFeedbackMetricBlock) : Decidable (MetricOK mb) := by
  unfold MetricOK; infer_instance

/-- The two wire bytes of a metric block with in-range fields. -/
def metricBytes (mb : CCFeedbackMetricBlock) : List ℕ :=
  [(if mb.Received then 128 else 0) + mb.ECN * 32 + mb.ArrivalTimeOffset / 256,
   mb.ArrivalTimeOffset % 256]

theorem metric_marshal_ok (mb : CCFeedbackMetricBlock) (h : MetricOK mb) :
    mb.marshal = .ok (metricBytes mb) := by
  obtain ⟨recv, e, o⟩ := mb
  obtain ⟨he, ho⟩ := h
  rw [metric_marshal_eq recv e o he ho]
  cases recv <;> simp [metricBytes]

/-- Marshal success forces in-range fields. -/
theorem metric_marshal_ok_inv (mb : CCFeedbackMetricBlock) (bytes : List ℕ)
    (h : mb.marshal = .ok bytes) : MetricOK mb := by
  obtain ⟨recv, e, o⟩ := mb
  by_cases hok : e < 4 ∧ o < 8192
  · exact ⟨hok.1, hok.2⟩
  · exfalso
    rw [metric_marshal_err recv e o (by omega)] at h
    exact GoR.noConfusion h

theorem marshalMetricLoop_eq :
    ∀ (ms : List CCFeedbackMetricBlock) (pre : List ℕ) (i pad : ℕ),
      pre.length = 8 + 2 * i → (∀ mb ∈ ms, MetricOK mb) →
      marshalMetricLoop (pre ++ List.replicate (2 * ms.length + pad) 0) i ms
        = .ok (pre ++ ((ms.map metricBytes).flatten ++ List.replicate pad 0)) := by
  intro ms
  induction ms with
  | nil => intro pre i pad _ _; simp [marshalMetricLoop]
  | cons mb rest ih =>
    intro pre i pad hlen hok
    have hmb : mb.marshal = .ok (metricBytes mb) :=
      metric_marshal_ok mb (hok mb (by simp))
    have hcopy : copyAt (pre ++ List.replicate (2 * (rest.length + 1) + pad) 0)
        (8 + i * 2) (metricBytes mb)
        = .ok ((pre ++ [(if mb.Received then 128 else 0) + mb.ECN * 32
            + mb.ArrivalTimeOffset / 256, mb.ArrivalTimeOffset % 256])
          ++ List.replicate (2 * rest.length + pad) 0) := by
      rw [copyAt, if_neg (by simp only [List.length_append, List.length_replicate]; omega)]
      rw [show 8 + i * 2 = pre.length by omega]
      rw [storeBytes_append (metricBytes mb) pre _ pre.length (le_refl _), Nat.sub_self]
      rw [storeBytes_eq_append (metricBytes mb) _
        (by simp [metricBytes]; omega)]
      rw [List.drop_replicate]
      simp only [metricBytes, List.length_cons, List.length_nil]
      rw [show 2 * (rest.length + 1) + pad - (0 + 1 + 1) = 2 * rest.length + pad by omega]
      simp [List.append_assoc]
    rw [marshalMetricLoop]
    simp only [bind, hmb, GoR.bind_ok, List.length_cons]
    rw [hcopy]
    simp only [GoR.bind_ok]
    rw [ih (pre ++ [(if mb.Received then 128 else 0) + mb.ECN * 32
          + mb.ArrivalTimeOffset / 256, mb.ArrivalTimeOffset % 256]) (i + 1) pad
        (by simp; omega) (fun x hx => hok x (by simp [hx]))]
    simp [metricBytes, List.append_assoc]

/-- Whole-block validity: the count is within the implementation ceiling
and every metric block is in range. -/
def BlockOK (b : CCFeedbackReportBlock) : Prop :=
  b.MetricBlocks.length ≤ 16384 ∧ ∀ mb ∈ b.MetricBlocks, MetricOK mb

instance (b : CCFeedbackReportBlock) : Decidable (BlockOK b) := by
  unfold BlockOK; infer_instance

/-- The wire image of a report block: SSRC, begin sequence, count, the
metric words in order, and one zero 2-byte pad slot when the count is
odd. -/
def blockWire (b : CCFeedbackReportBlock) : List ℕ :=
  u32be b.MediaSSRC ++ (u16be b.BeginSequence
    ++ (u16be (b.MetricBlocks.length % 65536)
      ++ ((b.MetricBlocks.map metricBytes).flatten
        ++ (if b.MetricBlocks.length % 2 ≠ 0 then [0, 0] else []))))

theorem join_metricBytes_length (ms : List CCFeedbackMetricBlock) :
    ((ms.map metricBytes).flatten).length = 2 * ms.length := by
  induction ms with
  | nil => rfl
  | cons mb rest ih =>
    simp only [List.map_cons, List.flatten_cons, List.length_append, ih, metricBytes]
    simp; omega

theorem blockLen_eq (b : CCFeedbackReportBlock) (h : b.MetricBlocks.length ≤ 16384) :
    b.Len = 8 + 2 * b.MetricBlocks.length
      + (if b.MetricBlocks.length % 2 ≠ 0 then 2 else 0) := by
  simp only [CCFeedbackReportBlock.Len]
  by_cases hodd : b.MetricBlocks.length % 2 ≠ 0
  · rw [if_pos hodd, if_pos hodd]
    omega
  · rw [if_neg hodd, if_neg hodd]
    omega

theorem blockWire_length (b : CCFeedbackReportBlock) :
    (blockWire b).length = 8 + 2 * b.MetricBlocks.length
      + (if b.MetricBlocks.length % 2 ≠ 0 then 2 else 0) := by
  rw [blockWire]
  simp only [List.length_append, join_metricBytes_length, u32be, u16be,
    List.length_cons, List.length_nil]
  by_cases hodd : b.MetricBlocks.length % 2 ≠ 0
  · rw [if_pos hodd, if_pos hodd]
    simp
    omega
  · rw [if_neg hodd, if_neg hodd]
    simp
    omega

theorem putU16_pre (pre : List ℕ) (tail v off : ℕ) (hoff : off = pre.length)
    (h2 : 2 ≤ tail) :
    putU16 (pre ++ List.replicate tail 0) off v
      = .ok (pre ++ (u16be v ++ List.replicate (tail - 2) 0)) := by
  subst hoff
  rw [putU16, if_neg (by simp; omega)]
  rw [storeBytes_append _ pre _ _ (le_refl _), Nat.sub_self,
    storeBytes_eq_append _ _ (by simp [u16be]; omega), List.drop_replicate]
  simp [u16be]

theorem putU32_pre (pre : List ℕ) (tail v off : ℕ) (hoff : off = pre.length)
    (h4 : 4 ≤ tail) :
    putU32 (pre ++ List.replicate tail 0) off v
      = .ok (pre ++ (u32be v ++ List.replicate (tail - 4) 0)) := by
  subst hoff
  rw [putU32, if_neg (by simp; omega)]
  rw [storeBytes_append _ pre _ _ (le_refl _), Nat.sub_self,
    storeBytes_eq_append _ _ (by simp [u32be]; omega), List.drop_replicate]
  simp [u32be]

/-- The byte image of a successful `CCFeedbackReportBlock.marshal`. -/
theorem blockMarshal_eq (b : CCFeedbackReportBlock) (hb : BlockOK b) :
    b.marshal = .ok (blockWire b) := by
  obtain ⟨hn, hm⟩ := hb
  have hLen : b.Len = 8 + 2 * b.MetricBlocks.length
      + (if b.MetricBlocks.length % 2 ≠ 0 then 2 else 0) := blockLen_eq b hn
  have hpadle : (if b.MetricBlocks.length % 2 ≠ 0 then 2 else 0) ≤ 2 := by
    split
    · exact le_refl 2
    · omega
  rw [CCFeedbackReportBlock.marshal, if_neg (by omega)]
  simp only [bind]
  have e0 : putU32 (List.replicate b.Len 0) 0 b.MediaSSRC
      = .ok (u32be b.MediaSSRC ++ List.replicate (b.Len - 4) 0) := by
    have h := putU32_pre [] b.Len b.MediaSSRC 0 (by simp) (by omega)
    simpa using h
  rw [e0, GoR.bind_ok]
  have e1 : putU16 (u32be b.MediaSSRC ++ List.replicate (b.Len - 4) 0) 4 b.BeginSequence
      = .ok (u32be b.MediaSSRC ++ (u16be b.BeginSequence
          ++ List.replicate (b.Len - 6) 0)) := by
    have h := putU16_pre (u32be b.MediaSSRC) (b.Len - 4) b.BeginSequence 4
      (by simp [u32be]) (by omega)
    rw [h, show b.Len - 4 - 2 = b.Len - 6 by omega]
  rw [e1, GoR.bind_ok]
  have e2 : putU16 (u32be b.MediaSSRC ++ (u16be b.BeginSequence
        ++ List.replicate (b.Len - 6) 0)) 6 (b.MetricBlocks.length % 65536)
      = .ok ((u32be b.MediaSSRC ++ u16be b.BeginSequence)
          ++ (u16be (b.MetricBlocks.length % 65536) ++ List.replicate (b.Len - 8) 0)) := by
    rw [← List.append_assoc]
    have h := putU16_pre (u32be b.MediaSSRC ++ u16be b.BeginSequence) (b.Len - 6)
      (b.MetricBlocks.length % 65536) 6 (by simp [u32be, u16be]) (by omega)
    rw [h, show b.Len - 6 - 2 = b.Len - 8 by omega]
  rw [e2, GoR.bind_ok]
  have e3 : marshalMetricLoop ((u32be b.MediaSSRC ++ u16be b.BeginSequence)
        ++ (u16be (b.MetricBlocks.length % 65536) ++ List.replicate (b.Len - 8) 0)) 0
        b.MetricBlocks
      = .ok (((u32be b.MediaSSRC ++ u16be b.BeginSequence)
            ++ u16be (b.MetricBlocks.length % 65536))
          ++ ((b.MetricBlocks.map metricBytes).flatten
            ++ List.replicate (if b.MetricBlocks.length % 2 ≠ 0 then 2 else 0) 0)) := by
    have hsplit : b.Len - 8 = 2 * b.MetricBlocks.length
        + (if b.MetricBlocks.length % 2 ≠ 0 then 2 else 0) := by omega
    rw [← List.append_assoc, hsplit]
    exact marshalMetricLoop_eq b.MetricBlocks _ 0 _ (by simp [u32be, u16be]) hm
  rw [e3]
  congr 1
  rw [blockWire]
  have hpadlist : List.replicate (if b.MetricBlocks.length % 2 ≠ 0 then 2 else 0) (0 : ℕ)
      = (if b.MetricBlocks.length % 2 ≠ 0 then [0, 0] else []) := by
    split
    · rfl
    · rfl
  rw [hpadlist]
  simp [List.append_assoc]

theorem marshalMetricLoop_ok_inv :
    ∀ (ms : List CCFeedbackMetricBlock) (buf : List ℕ) (i : ℕ) (out : List ℕ),
      marshalMetricLoop buf i ms = .ok out → ∀ mb ∈ ms, MetricOK mb := by
  intro ms
  induction ms with
  | nil => intro buf i out _ mb hmb; simp at hmb
  | cons m rest ih =>
    intro buf i out h mb hmb
    rw [marshalMetricLoop] at h
    simp only [bind] at h
    cases hm : m.marshal with
    | panic => rw [hm] at h; exact absurd h (by simp [GoR.bind])
    | loops => rw [hm] at h; exact absurd h (by simp [GoR.bind])
    | err e => rw [hm] at h; exact absurd h (by simp [GoR.bind])
    | ok bytes =>
      rw [hm, GoR.bind_ok] at h
      cases hc : copyAt buf (8 + i * 2) bytes with
      | panic => rw [hc] at h; exact absurd h (by simp [GoR.bind])
      | loops => rw [hc] at h; exact absurd h (by simp [GoR.bind])
      | err e => rw [hc] at h; exact absurd h (by simp [GoR.bind])
      | ok buf2 =>
        rw [hc, GoR.bind_ok] at h
        rcases List.mem_cons.mp hmb with rfl | hmem
        · exact metric_marshal_ok_inv mb bytes hm
        · exact ih buf2 (i + 1) out h mb hmem

/-- Marshal success forces block validity, and pins the output bytes. -/
theorem blockMarshal_ok_inv (b : CCFeedbackReportBlock) (buf : List ℕ)
    (h : b.marshal = .ok buf) : BlockOK b ∧ buf = blockWire b := by
  have hn : b.MetricBlocks.length ≤ 16384 := by
    by_contra hgt
    rw [CCFeedbackReportBlock.marshal, if_pos (by omega)] at h
    exact GoR.noConfusion h
  have hms : ∀ mb ∈ b.MetricBlocks, MetricOK mb := by
    have h2 := h
    rw [CCFeedbackReportBlock.marshal, if_neg (by omega)] at h2
    simp only [bind] at h2
    cases h0 : putU32 (List.replicate b.Len 0) 0 b.MediaSSRC with
    | panic => rw [h0] at h2; exact absurd h2 (by simp [GoR.bind])
    | loops => rw [h0] at h2; exact absurd h2 (by simp [GoR.bind])
    | err e => rw [h0] at h2; exact absurd h2 (by simp [GoR.bind])
    | ok buf1 =>
      rw [h0, GoR.bind_ok] at h2
      cases h1 : putU16 buf1 4 b.BeginSequence with
      | panic => rw [h1] at h2; exact absurd h2 (by simp [GoR.bind])
      | loops => rw [h1] at h2; exact absurd h2 (by simp [GoR.bind])
      | err e => rw [h1] at h2; exact absurd h2 (by simp [GoR.bind])
      | ok buf2 =>
        rw [h1, GoR.bind_ok] at h2
        cases hd : putU16 buf2 6 (b.MetricBlocks.length % 65536) with
        | panic => rw [hd] at h2; exact absurd h2 (by simp [GoR.bind])
        | loops => rw [hd] at h2; exact absurd h2 (by simp [GoR.bind])
        | err e => rw [hd] at h2; exact absurd h2 (by simp [GoR.bind])
        | ok buf3 =>
          rw [hd, GoR.bind_ok] at h2
          exact marshalMetricLoop_ok_inv b.MetricBlocks buf3 0 buf h2
  have heq := blockMarshal_eq b ⟨hn, hms⟩
  rw [heq] at h
  refine ⟨⟨hn, hms⟩, ?_⟩
  injection h with h
  exact h.symm

theorem blockWire_numReports (b : CCFeedbackReportBlock)
    (hn : b.MetricBlocks.length ≤ 16384) :
    readU16 (blockWire b) 6 = b.MetricBlocks.length := by
  rw [blockWire, ← List.append_assoc,
    readU16_middle 6 _ _ _ (by simp [u32be, u16be])]
  omega

theorem unmarshalMetricLoop_count :
    ∀ (rest i : ℕ) (acc : List CCFeedbackMetricBlock) (raw : List ℕ),
      8 + 2 * i + 2 * rest ≤ raw.length → 8 + 2 * i + 2 * rest ≤ 65535 →
      ∃ l, unmarshalMetricLoop raw i rest acc = .ok l ∧ l.length = acc.length + rest := by
  intro rest
  induction rest with
  | zero => intro i acc raw _ _; exact ⟨acc, rfl, by omega⟩
  | succ r ih =>
    intro i acc raw hlen hsmall
    have hoff : (8 + 2 * i) % 65536 = 8 + 2 * i := Nat.mod_eq_of_lt (by omega)
    have hslice : goSlice raw ((8 + 2 * i) % 65536) (((8 + 2 * i) % 65536 + 2) % 65536)
        = .ok ((raw.drop (8 + 2 * i)).take 2) := by
      rw [hoff, show (8 + 2 * i + 2) % 65536 = 8 + 2 * i + 2 from Nat.mod_eq_of_lt (by omega)]
      rw [goSlice, if_pos ⟨by omega, by omega⟩,
        show 8 + 2 * i + 2 - (8 + 2 * i) = 2 by omega]
    have hpiece : ((raw.drop (8 + 2 * i)).take 2).length = 2 := by
      simp only [List.length_take, List.length_drop]
      omega
    obtain ⟨mb, hmb⟩ := metric_unmarshal_ok_of_two _ hpiece
    obtain ⟨l, hl, hllen⟩ := ih (i + 1) (acc ++ [mb]) raw (by omega) (by omega)
    refine ⟨l, ?_, ?_⟩
    · rw [unmarshalMetricLoop]
      simp only [hslice, hmb]
      exact hl
    · rw [hllen]
      simp
      omega

theorem blockWire_unmarshal_count (b : CCFeedbackReportBlock) (hb : BlockOK b) :
    ∃ b', CCFeedbackReportBlock.unmarshal (blockWire b) = .ok b'
      ∧ b'.MetricBlocks.length = b.MetricBlocks.length := by
  obtain ⟨hn, _⟩ := hb
  have hwl : (blockWire b).length = 8 + 2 * b.MetricBlocks.length
      + (if b.MetricBlocks.length % 2 ≠ 0 then 2 else 0) := blockWire_length b
  have hnum : readU16 (blockWire b) 6 = b.MetricBlocks.length := blockWire_numReports b hn
  rw [CCFeedbackReportBlock.unmarshal, if_neg (by omega)]
  rw [hnum, if_neg (by omega)]
  simp only [bind]
  obtain ⟨l, hl, hllen⟩ := unmarshalMetricLoop_count b.MetricBlocks.length 0 [] (blockWire b)
    (by omega) (by omega)
  rw [hl, GoR.bind_ok]
  exact ⟨_, rfl, by simpa using hllen⟩

theorem putU16_cases (buf : List ℕ) (off v : ℕ) :
    putU16 buf off v = .panic ∨ ∃ buf2, putU16 buf off v = .ok buf2 := by
  rw [putU16]
  split
  · exact Or.inl rfl
  · exact Or.inr ⟨_, rfl⟩

theorem putU32_cases (buf : List ℕ) (off v : ℕ) :
    putU32 buf off v = .panic ∨ ∃ buf2, putU32 buf off v = .ok buf2 := by
  rw [putU32]
  split
  · exact Or.inl rfl
  · exact Or.inr ⟨_, rfl⟩

theorem metric_marshal_no_tooMany (mb : CCFeedbackMetricBlock) :
    mb.marshal ≠ .err .tooManyReports := by
  obtain ⟨recv, e, o⟩ := mb
  by_cases hok : e < 4 ∧ o < 8192
  · rw [metric_marshal_eq recv e o hok.1 hok.2]
    exact fun h => GoR.noConfusion h
  · rw [metric_marshal_err recv e o (by omega)]
    intro h
    injection h with h
    exact Err.noConfusion h

theorem marshalMetricLoop_no_tooMany :
    ∀ (ms : List CCFeedbackMetricBlock) (buf : List ℕ) (i : ℕ),
      marshalMetricLoop buf i ms ≠ .err .tooManyReports := by
  intro ms
  induction ms with
  | nil => intro buf i h; exact GoR.noConfusion h
  | cons m rest ih =>
    intro buf i h
    rw [marshalMetricLoop] at h
    simp only [bind] at h
    cases hm : m.marshal with
    | panic => rw [hm] at h; exact GoR.noConfusion h
    | loops => rw [hm] at h; exact GoR.noConfusion h
    | err e =>
      rw [hm] at h
      simp only [GoR.bind_err] at h
      injection h with h
      subst h
      exact metric_marshal_no_tooMany m hm
    | ok bytes =>
      rw [hm, GoR.bind_ok] at h
      cases hc : copyAt buf (8 + i * 2) bytes with
      | panic => rw [hc] at h; exact GoR.noConfusion h
      | loops => rw [hc] at h; exact GoR.noConfusion h
      | err e => rw [hc] at h; rw [copyAt] at hc; revert hc; split <;> intro hc <;> exact GoR.noConfusion hc
      | ok buf2 =>
        rw [hc, GoR.bind_ok] at h
        exact ih buf2 (i + 1) h

/-! ## Claim theorems: report block -/

/-- C6: for a report block with metric count n that has a wire image
(count within the marshal ceiling), the length reported by `Len` — and
realised by the marshalled buffer — is `8 + 2n` for even n and
`8 + 2(n+1)` for odd n (one extra 2-byte pad slot); decoding the
marshalled buffer succeeds and reconstructs exactly n metric blocks, not
the rounded-up count. -/
theorem C6_report_block_length_padding_count (b : CCFeedbackReportBlock)
    (hn : b.MetricBlocks.length ≤ 16384) :
    (b.Len = if b.MetricBlocks.length % 2 = 0 then 8 + 2 * b.MetricBlocks.length
        else 8 + 2 * (b.MetricBlocks.length + 1)) ∧
    ∀ buf, b.marshal = .ok buf →
      buf.length = b.Len ∧
      ∃ b', CCFeedbackReportBlock.unmarshal buf = .ok b'
        ∧ b'.MetricBlocks.length = b.MetricBlocks.length := by
  constructor
  · rw [blockLen_eq b hn]
    by_cases h : b.MetricBlocks.length % 2 = 0
    · rw [if_pos h, if_neg (by omega)]
      omega
    · rw [if_neg h, if_pos (by omega)]
      omega
  · intro buf h
    obtain ⟨hbok, hbuf⟩ := blockMarshal_ok_inv b buf h
    subst hbuf
    refine ⟨?_, blockWire_unmarshal_count b hbok⟩
    rw [blockWire_length b, blockLen_eq b hn]

/-- Witness for C6 at a block with one metric block (odd count: the
length is 8 + 2*2 = 12 and decode recovers exactly 1 metric block). -/
theorem C6_report_block_length_padding_count_witness :
    ((⟨1, 2, [⟨true, 1, 3⟩]⟩ : CCFeedbackReportBlock).Len
        = if (1 : ℕ) % 2 = 0 then 8 + 2 * 1 else 8 + 2 * (1 + 1)) ∧
    ∀ buf, (⟨1, 2, [⟨true, 1, 3⟩]⟩ : CCFeedbackReportBlock).marshal = .ok buf →
      buf.length = (⟨1, 2, [⟨true, 1, 3⟩]⟩ : CCFeedbackReportBlock).Len ∧
      ∃ b', CCFeedbackReportBlock.unmarshal buf = .ok b'
        ∧ b'.MetricBlocks.length = 1 :=
  C6_report_block_length_padding_count ⟨1, 2, [⟨true, 1, 3⟩]⟩ (by norm_num)

/-- C7: report-block marshalling fails with the too-many-reports error
exactly when the metric-block count exceeds 16384; whenever marshalling
succeeds, the count was accepted and written into the 16-bit num_reports
field (bytes 6–7 of the block). -/
theorem C7_too_many_reports_ceiling (b : CCFeedbackReportBlock) :
    (b.marshal = .err .tooManyReports ↔ b.MetricBlocks.length > 16384) ∧
    ∀ buf, b.marshal = .ok buf → readU16 buf 6 = b.MetricBlocks.length := by
  constructor
  · constructor
    · intro h
      by_contra hle
      rw [CCFeedbackReportBlock.marshal, if_neg hle] at h
      simp only [bind] at h
      rcases putU32_cases (List.replicate b.Len 0) 0 b.MediaSSRC with h0 | ⟨buf1, h0⟩
      · rw [h0] at h; exact GoR.noConfusion h
      · rw [h0, GoR.bind_ok] at h
        rcases putU16_cases buf1 4 b.BeginSequence with h1 | ⟨buf2, h1⟩
        · rw [h1] at h; exact GoR.noConfusion h
        · rw [h1, GoR.bind_ok] at h
          rcases putU16_cases buf2 6 (b.MetricBlocks.length % 65536) with hd | ⟨buf3, hd⟩
          · rw [hd] at h; exact GoR.noConfusion h
          · rw [hd, GoR.bind_ok] at h
            exact marshalMetricLoop_no_tooMany b.MetricBlocks buf3 0 h
    · intro h
      rw [CCFeedbackReportBlock.marshal, if_pos h]
  · intro buf h
    obtain ⟨⟨hn, _⟩, hbuf⟩ := blockMarshal_ok_inv b buf h
    subst hbuf
    exact blockWire_numReports b hn

/-- Witness for C7 at a block with two metric blocks and at one with
16385 metric blocks. -/
theorem C7_too_many_reports_ceiling_witness :
    (((⟨5, 6, [⟨false, 0, 0⟩, ⟨true, 1, 2⟩]⟩ : CCFeedbackReportBlock).marshal
        = .err .tooManyReports ↔ (2 : ℕ) > 16384) ∧
      ∀ buf, (⟨5, 6, [⟨false, 0, 0⟩, ⟨true, 1, 2⟩]⟩ : CCFeedbackReportBlock).marshal
          = .ok buf → readU16 buf 6 = 2) ∧
    (⟨5, 6, List.replicate 16385 ⟨false, 0, 0⟩⟩ : CCFeedbackReportBlock).marshal
      = .err .tooManyReports :=
  ⟨C7_too_many_reports_ceiling ⟨5, 6, [⟨false, 0, 0⟩, ⟨true, 1, 2⟩]⟩,
   (C7_too_many_reports_ceiling ⟨5, 6, List.replicate 16385 ⟨false, 0, 0⟩⟩).1.mpr
     (by simp only [List.length_replicate]; norm_num)⟩

/-! ## Report-level wire characterization -/

/-- The four bytes emitted by a successful `Header.Marshal`. -/
def headerWire (h : Header) : List ℕ :=
  [2 <<< 6 ||| (if h.Padding then 1 else 0) <<< 5 ||| h.Count,
   h.PacketType % 256, h.Length / 256 % 256, h.Length % 256]

theorem header_marshal_ok (h : Header) (hc : h.Count ≤ 31) :
    h.Marshal = .ok (headerWire h) := by
  rw [Header.Marshal, if_neg (by omega)]
  rfl

theorem headerWire_byte0 (h : Header) (hc : h.Count ≤ 31) :
    (2 : ℕ) <<< 6 ||| (if h.Padding then 1 else 0) <<< 5 ||| h.Count
      = 128 + (if h.Padding then 32 else 0) + h.Count := by
  cases hp : h.Padding
  · simp only [ite_false, Bool.false_eq_true]
    rw [show (2 : ℕ) <<< 6 ||| 0 <<< 5 = 128 from by decide,
      lor_eq_add_of_mod 5 128 h.Count (by norm_num) (by omega)]
  · simp only [ite_true]
    rw [show (2 : ℕ) <<< 6 ||| 1 <<< 5 = 160 from by decide,
      lor_eq_add_of_mod 5 160 h.Count (by norm_num) (by omega)]

/-- Any buffer of at least four bytes whose leading byte encodes
version 2 parses as some header. -/
theorem header_unmarshal_ok (raw : List ℕ) (h4 : 4 ≤ raw.length)
    (hb0 : raw.getD 0 0 >>> 6 = 2) :
    ∃ hd, Header.Unmarshal raw = .ok hd := by
  rw [Header.Unmarshal, if_neg (by omega), if_neg (by rw [hb0]; omega)]
  exact ⟨_, rfl⟩

/-- Whole-report validity: the stored header count fits, every block is
valid, and the exact total size fits the 16-bit offsets. -/
def ReportOK (b : CCFeedbackReport) : Prop :=
  b.Header.Count ≤ 31 ∧ (∀ blk ∈ b.ReportBlocks, BlockOK blk) ∧
    12 + ((b.ReportBlocks.map CCFeedbackReportBlock.Len).sum) ≤ 65535

instance (b : CCFeedbackReport) : Decidable (ReportOK b) := by
  unfold ReportOK; infer_instance

/-- The byte image of a successful `CCFeedbackReport.Marshal`. -/
def reportWire (b : CCFeedbackReport) : List ℕ :=
  headerWire b.Header ++ (u32be b.SenderSSRC
    ++ ((b.ReportBlocks.map blockWire).flatten ++ u32be b.ReportTimestamp))

theorem foldl_len_mod (blocks : List CCFeedbackReportBlock) :
    ∀ acc : ℕ, acc + ((blocks.map CCFeedbackReportBlock.Len).sum) ≤ 65535 →
      blocks.foldl (fun a blk => (a + blk.Len) % 65536) acc
        = acc + ((blocks.map CCFeedbackReportBlock.Len).sum) := by
  induction blocks with
  | nil => intro acc _; simp
  | cons blk rest ih =>
    intro acc hle
    simp only [List.map_cons, List.sum_cons] at hle
    rw [List.foldl_cons, Nat.mod_eq_of_lt (by omega), ih (acc + blk.Len) (by omega)]
    simp only [List.map_cons, List.sum_cons]
    omega

theorem reportLen_eq (b : CCFeedbackReport)
    (h : 12 + ((b.ReportBlocks.map CCFeedbackReportBlock.Len).sum) ≤ 65535) :
    b.Len = 12 + ((b.ReportBlocks.map CCFeedbackReportBlock.Len).sum) := by
  rw [CCFeedbackReport.Len, foldl_len_mod b.ReportBlocks 0 (by omega)]
  rw [Nat.mod_eq_of_lt (by omega)]
  omega

theorem flatten_blockWire_length (blocks : List CCFeedbackReportBlock)
    (h : ∀ blk ∈ blocks, BlockOK blk) :
    ((blocks.map blockWire).flatten).length
      = (blocks.map CCFeedbackReportBlock.Len).sum := by
  induction blocks with
  | nil => rfl
  | cons blk rest ih =>
    simp only [List.map_cons, List.flatten_cons, List.length_append, List.sum_cons]
    rw [blockWire_length blk, ← blockLen_eq blk (h blk (by simp)).1,
      ih (fun x hx => h x (by simp [hx]))]

theorem reportMarshalLoop_eq :
    ∀ (blocks : List CCFeedbackReportBlock) (pre : List ℕ) (tail : ℕ),
      (∀ blk ∈ blocks, BlockOK blk) →
      pre.length + ((blocks.map CCFeedbackReportBlock.Len).sum) ≤ 65535 →
      reportMarshalLoop
          (pre ++ List.replicate (((blocks.map CCFeedbackReportBlock.Len).sum) + tail) 0)
          pre.length blocks
        = .ok (pre ++ ((blocks.map blockWire).flatten ++ List.replicate tail 0),
               pre.length + ((blocks.map CCFeedbackReportBlock.Len).sum)) := by
  intro blocks
  induction blocks with
  | nil =>
    intro pre tail _ _
    simp [reportMarshalLoop]
  | cons blk rest ih =>
    intro pre tail hok hle
    simp only [List.map_cons, List.sum_cons] at hle
    have hbok : BlockOK blk := hok blk (by simp)
    have hwlen : (blockWire blk).length = blk.Len := by
      rw [blockWire_length blk, ← blockLen_eq blk hbok.1]
    rw [reportMarshalLoop]
    simp only [bind, blockMarshal_eq blk hbok, GoR.bind_ok]
    have hcopy : copyAt
        (pre ++ List.replicate (((blk :: rest).map CCFeedbackReportBlock.Len).sum + tail) 0)
        pre.length (blockWire blk)
        = .ok ((pre ++ blockWire blk)
            ++ List.replicate (((rest.map CCFeedbackReportBlock.Len).sum) + tail) 0) := by
      have hfit : (blockWire blk).length ≤ (List.replicate (((blk :: rest).map CCFeedbackReportBlock.Len).sum + tail) (0 : ℕ)).length := by
        simp only [List.length_replicate, List.map_cons, List.sum_cons, hwlen]
        omega
      rw [copyAt, if_neg (by simp only [List.length_append, List.length_replicate]; omega)]
      rw [storeBytes_append _ pre _ _ (le_refl _), Nat.sub_self,
        storeBytes_eq_append _ _ hfit, List.drop_replicate]
      simp only [List.map_cons, List.sum_cons, hwlen]
      rw [show blk.Len + (rest.map CCFeedbackReportBlock.Len).sum + tail - blk.Len = (rest.map CCFeedbackReportBlock.Len).sum + tail from by omega]
      simp [List.append_assoc]
    rw [hcopy, GoR.bind_ok]
    have hmod : (pre.length + blk.Len) % 65536 = pre.length + blk.Len :=
      Nat.mod_eq_of_lt (by omega)
    rw [hmod, show pre.length + blk.Len = (pre ++ blockWire blk).length by simp [hwlen]]
    rw [ih (pre ++ blockWire blk) tail (fun x hx => hok x (by simp [hx]))
      (by simp only [List.length_append, hwlen]; omega)]
    simp only [GoR.ok.injEq, Prod.mk.injEq, List.map_cons, List.flatten_cons,
      List.sum_cons, List.length_append, hwlen]
    constructor
    · simp [List.append_assoc]
    · omega

theorem reportMarshal_eq (b : CCFeedbackReport) (h : ReportOK b) :
    b.Marshal = .ok (reportWire b) := by
  obtain ⟨hc, hblocks, hsum⟩ := h
  have hLen : b.Len = 12 + ((b.ReportBlocks.map CCFeedbackReportBlock.Len).sum) :=
    reportLen_eq b hsum
  have h4 : ¬ ((List.replicate b.Len (0 : ℕ)).length < 4) := by
    simp only [List.length_replicate]; omega
  have hcopyhdr : storeBytes (List.replicate b.Len 0) 0 (headerWire b.Header)
      = headerWire b.Header ++ List.replicate (b.Len - 4) 0 := by
    rw [storeBytes_eq_append (headerWire b.Header) (List.replicate b.Len 0)
      (by simp only [List.length_replicate, headerWire, List.length_cons,
        List.length_nil]; omega)]
    rw [List.drop_replicate]
    rfl
  have hput4 : putU32 (headerWire b.Header ++ List.replicate (b.Len - 4) 0) 4 b.SenderSSRC
      = .ok (headerWire b.Header ++ (u32be b.SenderSSRC
          ++ List.replicate (b.Len - 8) 0)) := by
    have hp := putU32_pre (headerWire b.Header) (b.Len - 4) b.SenderSSRC 4 rfl (by omega)
    rw [hp, show b.Len - 4 - 4 = b.Len - 8 by omega]
  have hloop := reportMarshalLoop_eq b.ReportBlocks
    (headerWire b.Header ++ u32be b.SenderSSRC) 4 hblocks
    (by simp only [List.length_append, headerWire, u32be, List.length_cons,
      List.length_nil]; omega)
  have hpre8 : (headerWire b.Header ++ u32be b.SenderSSRC).length = 8 := by
    simp [headerWire, u32be]
  rw [hpre8] at hloop
  have hshape : headerWire b.Header ++ (u32be b.SenderSSRC ++ List.replicate (b.Len - 8) 0)
      = (headerWire b.Header ++ u32be b.SenderSSRC)
        ++ List.replicate (((b.ReportBlocks.map CCFeedbackReportBlock.Len).sum) + 4) 0 := by
    rw [show b.Len - 8 = ((b.ReportBlocks.map CCFeedbackReportBlock.Len).sum) + 4 from by omega,
      List.append_assoc]
  have hput_ts : putU32 ((headerWire b.Header ++ u32be b.SenderSSRC)
        ++ ((b.ReportBlocks.map blockWire).flatten ++ List.replicate 4 0))
        (8 + ((b.ReportBlocks.map CCFeedbackReportBlock.Len).sum)) b.ReportTimestamp
      = .ok (((headerWire b.Header ++ u32be b.SenderSSRC)
          ++ (b.ReportBlocks.map blockWire).flatten) ++ (u32be b.ReportTimestamp
            ++ List.replicate 0 0)) := by
    rw [show ((headerWire b.Header ++ u32be b.SenderSSRC)
          ++ ((b.ReportBlocks.map blockWire).flatten ++ List.replicate 4 0))
        = (((headerWire b.Header ++ u32be b.SenderSSRC)
            ++ (b.ReportBlocks.map blockWire).flatten) ++ List.replicate (0 + 4) 0) from by
      simp [List.append_assoc]]
    exact putU32_pre ((headerWire b.Header ++ u32be b.SenderSSRC)
        ++ (b.ReportBlocks.map blockWire).flatten) (0 + 4) b.ReportTimestamp
        (8 + ((b.ReportBlocks.map CCFeedbackReportBlock.Len).sum))
        (by simp only [List.length_append, hpre8, flatten_blockWire_length _ hblocks])
        (by omega)
  rw [CCFeedbackReport.Marshal]
  simp only [bind, header_marshal_ok b.Header hc, GoR.bind_ok, if_neg h4]
  rw [hcopyhdr, hput4, GoR.bind_ok, hshape, hloop, GoR.bind_ok]
  show (putU32 ((headerWire b.Header ++ u32be b.SenderSSRC)
        ++ ((b.ReportBlocks.map blockWire).flatten ++ List.replicate 4 0))
        (8 + ((b.ReportBlocks.map CCFeedbackReportBlock.Len).sum)) b.ReportTimestamp).bind
      (fun buf => pure buf) = .ok (reportWire b)
  rw [hput_ts, GoR.bind_ok]
  rw [reportWire]
  simp [List.append_assoc, pure]

/-! ## Marshal size consistency -/

theorem putU16_length (buf : List ℕ) (off v : ℕ) (buf2 : List ℕ)
    (h : putU16 buf off v = .ok buf2) : buf2.length = buf.length := by
  rw [putU16] at h
  split at h
  · exact GoR.noConfusion h
  · injection h with h
    rw [← h, storeBytes_length]

theorem putU32_length (buf : List ℕ) (off v : ℕ) (buf2 : List ℕ)
    (h : putU32 buf off v = .ok buf2) : buf2.length = buf.length := by
  rw [putU32] at h
  split at h
  · exact GoR.noConfusion h
  · injection h with h
    rw [← h, storeBytes_length]

theorem copyAt_length (buf : List ℕ) (off : ℕ) (src : List ℕ) (buf2 : List ℕ)
    (h : copyAt buf off src = .ok buf2) : buf2.length = buf.length := by
  rw [copyAt] at h
  split at h
  · exact GoR.noConfusion h
  · injection h with h
    rw [← h, storeBytes_length]

theorem reportMarshalLoop_length :
    ∀ (blocks : List CCFeedbackReportBlock) (buf : List ℕ) (off : ℕ)
      (out : List ℕ × ℕ), reportMarshalLoop buf off blocks = .ok out →
      out.1.length = buf.length := by
  intro blocks
  induction blocks with
  | nil =>
    intro buf off out h
    rw [reportMarshalLoop] at h
    injection h with h
    rw [← h]
  | cons blk rest ih =>
    intro buf off out h
    rw [reportMarshalLoop] at h
    simp only [bind] at h
    cases hm : blk.marshal with
    | panic => rw [hm] at h; exact absurd h (by simp [GoR.bind])
    | loops => rw [hm] at h; exact absurd h (by simp [GoR.bind])
    | err e => rw [hm] at h; exact absurd h (by simp [GoR.bind])
    | ok bytes =>
      rw [hm, GoR.bind_ok] at h
      cases hc : copyAt buf off bytes with
      | panic => rw [hc] at h; exact absurd h (by simp [GoR.bind])
      | loops => rw [hc] at h; exact absurd h (by simp [GoR.bind])
      | err e => rw [hc] at h; exact absurd h (by simp [GoR.bind])
      | ok buf2 =>
        rw [hc, GoR.bind_ok] at h
        rw [ih buf2 _ out h, copyAt_length buf off bytes buf2 hc]

/-- C9: whenever marshalling succeeds, the emitted buffer's length
equals the value reported by the packet's size operation: `Len()` for
the congestion-control feedback report and `MarshalSize()` for the
application-defined packet. -/
theorem C9_marshal_size_consistency :
    (∀ (b : CCFeedbackReport) (buf : List ℕ), b.Marshal = .ok buf →
      buf.length = b.Len) ∧
    (∀ (a : ApplicationDefined) (buf : List ℕ), a.Marshal = .ok buf →
      buf.length = a.MarshalSize) := by
  constructor
  · intro b buf h
    rw [CCFeedbackReport.Marshal] at h
    simp only [bind] at h
    cases hh : b.Header.Marshal with
    | panic => rw [hh] at h; exact absurd h (by simp [GoR.bind])
    | loops => rw [hh] at h; exact absurd h (by simp [GoR.bind])
    | err e => rw [hh] at h; exact absurd h (by simp [GoR.bind])
    | ok hdr =>
      rw [hh, GoR.bind_ok] at h
      by_cases h4 : (List.replicate b.Len (0 : ℕ)).length < 4
      · rw [if_pos h4] at h
        exact absurd h (by simp [GoR.bind])
      · rw [if_neg h4, GoR.bind_ok] at h
        cases hp : putU32 (storeBytes (List.replicate b.Len 0) 0 hdr) 4 b.SenderSSRC with
        | panic => rw [hp] at h; exact absurd h (by simp [GoR.bind])
        | loops => rw [hp] at h; exact absurd h (by simp [GoR.bind])
        | err e => rw [hp] at h; exact absurd h (by simp [GoR.bind])
        | ok buf1 =>
          rw [hp, GoR.bind_ok] at h
          cases hl : reportMarshalLoop buf1 8 b.ReportBlocks with
          | panic => rw [hl] at h; exact absurd h (by simp [GoR.bind])
          | loops => rw [hl] at h; exact absurd h (by simp [GoR.bind])
          | err e => rw [hl] at h; exact absurd h (by simp [GoR.bind])
          | ok res =>
            rw [hl, GoR.bind_ok] at h
            cases ht : putU32 res.1 res.2 b.ReportTimestamp with
            | panic => rw [ht] at h; exact absurd h (by simp [GoR.bind])
            | loops => rw [ht] at h; exact absurd h (by simp [GoR.bind])
            | err e => rw [ht] at h; exact absurd h (by simp [GoR.bind])
            | ok buf2 =>
              rw [ht, GoR.bind_ok] at h
              have : buf = buf2 := by
                injection h with h
                exact h.symm
              subst this
              rw [putU32_length res.1 res.2 b.ReportTimestamp buf ht,
                reportMarshalLoop_length b.ReportBlocks buf1 8 res hl,
                putU32_length _ 4 b.SenderSSRC buf1 hp,
                storeBytes_length, List.length_replicate]
  · intro a buf h
    rw [ApplicationDefined.Marshal] at h
    by_cases hname : a.Name.length ≠ 4
    · rw [if_pos hname] at h
      exact absurd h (by simp)
    · rw [if_neg hname] at h
      by_cases hbig : 12 + a.Data.length + (4 - a.Data.length % 4) % 4 > 65535
      · rw [if_pos hbig] at h
        exact absurd h (by simp)
      · rw [if_neg hbig] at h
        simp only [bind] at h
        rw [header_marshal_ok _ (by norm_num), GoR.bind_ok] at h
        have : buf = headerWire ⟨decide (0 < (4 - a.Data.length % 4) % 4), 0, 204,
            (12 + a.Data.length + (4 - a.Data.length % 4) % 4) / 4 - 1⟩
            ++ u32be a.SSRC ++ a.Name ++ a.Data
            ++ List.replicate ((4 - a.Data.length % 4) % 4) ((4 - a.Data.length % 4) % 4) := by
          injection h with h
          exact h.symm
        subst this
        rw [ApplicationDefined.MarshalSize]
        simp only [List.length_append, List.length_replicate, headerWire, u32be,
          List.length_cons, List.length_nil]
        push_neg at hname
        omega

/-- Witness for C9 at a block-free feedback report and at the padded
application-defined test packet. -/
theorem C9_marshal_size_consistency_witness :
    ([128, 205, 0, 2, 0, 0, 0, 7, 0, 0, 0, 9] : List ℕ).length
        = CCFeedbackReport.Len ⟨⟨false, 0, 205, 2⟩, 7, [], 9⟩ ∧
    ([0xA0, 0xcc, 0x00, 0x04, 0x4b, 0xaa, 0xe1, 0xab, 0x53, 0x55, 0x49, 0x54,
      0x41, 0x42, 0x43, 0x44, 0x45, 3, 3, 3] : List ℕ).length
        = ApplicationDefined.MarshalSize
            ⟨0x4baae1ab, [0x53, 0x55, 0x49, 0x54], [0x41, 0x42, 0x43, 0x44, 0x45]⟩ :=
  ⟨C9_marshal_size_consistency.1 ⟨⟨false, 0, 205, 2⟩, 7, [], 9⟩
      [128, 205, 0, 2, 0, 0, 0, 7, 0, 0, 0, 9] (by decide),
   C9_marshal_size_consistency.2
      ⟨0x4baae1ab, [0x53, 0x55, 0x49, 0x54], [0x41, 0x42, 0x43, 0x44, 0x45]⟩
      [0xA0, 0xcc, 0x00, 0x04, 0x4b, 0xaa, 0xe1, 0xab, 0x53, 0x55, 0x49, 0x54,
       0x41, 0x42, 0x43, 0x44, 0x45, 3, 3, 3] (by decide)⟩

/-! ## Unmarshal block-loop characterization -/

/-- What a successful run of the report-block reading loop guarantees:
the decoded blocks extend the accumulator; each was decoded by
`CCFeedbackReportBlock.unmarshal` at the 16-bit offset obtained by
summing the previous blocks' self-reported lengths; each such block
starts strictly before `tsOff`; and the final offset has reached
`tsOff`. -/
theorem reportUnmarshalLoop_spec :
    ∀ (fuel offset : ℕ) (acc res : List CCFeedbackReportBlock)
      (raw : List ℕ) (tsOff : ℕ),
      tsOff ≤ raw.length → offset < 65536 →
      reportUnmarshalLoop raw tsOff fuel offset acc = .ok res →
      ∃ bs, res = acc ++ bs ∧
        (∀ k, k < bs.length →
          (offset + ((bs.take k).map CCFeedbackReportBlock.Len).sum) % 65536 < tsOff ∧
          CCFeedbackReportBlock.unmarshal
              (raw.drop ((offset + ((bs.take k).map CCFeedbackReportBlock.Len).sum) % 65536))
            = .ok (bs.getD k ⟨0, 0, []⟩)) ∧
        tsOff ≤ (offset + ((bs.map CCFeedbackReportBlock.Len).sum)) % 65536 := by
  intro fuel
  induction fuel with
  | zero =>
    intro offset acc res raw tsOff _ _ h
    exact absurd h (by rw [reportUnmarshalLoop]; simp)
  | succ fuel ih =>
    intro offset acc res raw tsOff hts hoff h
    by_cases hlt : offset < tsOff
    · have hgs : goSlice raw offset raw.length = .ok (raw.drop offset) := by
        rw [goSlice, if_pos ⟨by omega, le_refl _⟩,
          List.take_of_length_le (by simp)]
      have hstep : reportUnmarshalLoop raw tsOff (fuel + 1) offset acc
          = match CCFeedbackReportBlock.unmarshal (raw.drop offset) with
            | .panic => .panic
            | .loops => .loops
            | .err e => .err e
            | .ok blk => reportUnmarshalLoop raw tsOff fuel
                ((offset + blk.Len) % 65536) (acc ++ [blk]) := by
        rw [reportUnmarshalLoop, if_pos hlt, hgs]
      rw [hstep] at h
      cases hbu : CCFeedbackReportBlock.unmarshal (raw.drop offset) with
      | panic => rw [hbu] at h; exact GoR.noConfusion h
      | loops => rw [hbu] at h; exact GoR.noConfusion h
      | err e => rw [hbu] at h; exact GoR.noConfusion h
      | ok blk =>
        rw [hbu] at h
        obtain ⟨bs, hres, hmid, hend⟩ := ih ((offset + blk.Len) % 65536) (acc ++ [blk])
          res raw tsOff hts (Nat.mod_lt _ (by omega)) h
        refine ⟨blk :: bs, by simpa [List.append_assoc] using hres, ?_, ?_⟩
        · intro k hk
          match k with
          | 0 =>
            simp only [List.take_zero, List.map_nil, List.sum_nil, Nat.add_zero,
              Nat.mod_eq_of_lt hoff, List.getD]
            exact ⟨hlt, by simpa using hbu⟩
          | k + 1 =>
            have hk2 : k < bs.length := by simpa using hk
            obtain ⟨h1, h2⟩ := hmid k hk2
            have hmodeq : ((offset + blk.Len) % 65536
                  + ((bs.take k).map CCFeedbackReportBlock.Len).sum) % 65536
                = (offset + (((blk :: bs).take (k + 1)).map CCFeedbackReportBlock.Len).sum)
                    % 65536 := by
              simp only [List.take_succ_cons, List.map_cons, List.sum_cons]
              omega
            rw [hmodeq] at h1 h2
            exact ⟨h1, by simpa using h2⟩
        · have hmodeq : ((offset + blk.Len) % 65536
              + ((bs.map CCFeedbackReportBlock.Len).sum)) % 65536
              = (offset + (((blk :: bs).map CCFeedbackReportBlock.Len).sum)) % 65536 := by
            simp only [List.map_cons, List.sum_cons]
            omega
          rw [hmodeq] at hend
          exact hend
    · rw [reportUnmarshalLoop, if_neg hlt] at h
      have hres : res = acc ++ [] := by
        injection h with h2
        simp [h2]
      refine ⟨[], hres, ?_, ?_⟩
      · intro k hk
        simp at hk
      · simpa [Nat.mod_eq_of_lt hoff] using Nat.le_of_not_lt hlt

/-! ## Claim theorems: CCFeedbackReport.Unmarshal structure -/

/-- C2 counterexample: a crafted 22-byte packet on which Unmarshal
succeeds although its single report block claims 3 metric blocks and
therefore extends to byte offset 24, past the point where exactly 4
bytes remain (offset 18): the block region is not bounded by the
timestamp position, and the last metric words are read out of the
trailing timestamp bytes. -/
theorem C2_counterexample_block_overruns_timestamp :
    CCFeedbackReport.Unmarshal
        [0x80, 205, 0, 4, 1, 2, 3, 4, 9, 9, 9, 9, 0, 5, 0, 3,
         0x80, 0x00, 0x80, 0x00, 0x80, 0x00]
      = .ok ⟨⟨false, 0, 205, 4⟩, 0x01020304,
          [⟨0x09090909, 5, [⟨true, 0, 0⟩, ⟨true, 0, 0⟩, ⟨true, 0, 0⟩]⟩], 0x80008000⟩ ∧
    ([0x80, 205, 0, 4, 1, 2, 3, 4, 9, 9, 9, 9, 0, 5, 0, 3,
      0x80, 0x00, 0x80, 0x00, 0x80, 0x00] : List ℕ).length = 22 ∧
    8 + CCFeedbackReportBlock.Len
        ⟨0x09090909, 5, [⟨true, 0, 0⟩, ⟨true, 0, 0⟩, ⟨true, 0, 0⟩]⟩ = 24 ∧
    ¬ (24 : ℕ) ≤ 22 - 4 := by
  exact ⟨by decide, by decide, by decide, by decide⟩

/-- C2 amended: for buffers of at most 65535 bytes (offsets are 16-bit),
a successful CCFeedbackReport.Unmarshal reads the report timestamp from
the last 4 bytes of the caller-supplied buffer, decodes report blocks
starting at byte offset 8 with each block advancing the offset by its
self-reported length, and starts a new report block only while the
offset is strictly below the position 4 bytes before the end; the final
block may extend past that position, so after the last block the offset
has reached or passed it (rather than landing on it exactly). -/
theorem C2_amended_unmarshal_structure (raw : List ℕ) (r : CCFeedbackReport)
    (hlen : raw.length ≤ 65535) (h : CCFeedbackReport.Unmarshal raw = .ok r) :
    12 ≤ raw.length ∧
    r.ReportTimestamp = readU32 raw (raw.length - 4) ∧
    (∀ k, k < r.ReportBlocks.length →
      (8 + ((r.ReportBlocks.take k).map CCFeedbackReportBlock.Len).sum) % 65536
          < raw.length - 4 ∧
      CCFeedbackReportBlock.unmarshal
          (raw.drop ((8 + ((r.ReportBlocks.take k).map CCFeedbackReportBlock.Len).sum)
            % 65536))
        = .ok (r.ReportBlocks.getD k ⟨0, 0, []⟩)) ∧
    raw.length - 4 ≤ (8 + ((r.ReportBlocks.map CCFeedbackReportBlock.Len).sum)) % 65536 := by
  have h12 : ¬ raw.length < 12 := by
    intro hlt
    rw [CCFeedbackReport.Unmarshal, if_pos hlt] at h
    exact GoR.noConfusion h
  rw [CCFeedbackReport.Unmarshal, if_neg h12] at h
  simp only [bind] at h
  cases hh : Header.Unmarshal raw with
  | panic => rw [hh] at h; exact absurd h (by simp [GoR.bind])
  | loops => rw [hh] at h; exact absurd h (by simp [GoR.bind])
  | err e => rw [hh] at h; exact absurd h (by simp [GoR.bind])
  | ok hd =>
    rw [hh, GoR.bind_ok] at h
    have htsoff : (raw.length - 4) % 65536 = raw.length - 4 :=
      Nat.mod_eq_of_lt (by omega)
    rw [htsoff] at h
    cases hl : reportUnmarshalLoop raw (raw.length - 4) 65537 8 [] with
    | panic => rw [hl] at h; exact absurd h (by simp [GoR.bind])
    | loops => rw [hl] at h; exact absurd h (by simp [GoR.bind])
    | err e => rw [hl] at h; exact absurd h (by simp [GoR.bind])
    | ok blocks =>
      rw [hl, GoR.bind_ok] at h
      obtain ⟨bs, hres, hmid, hend⟩ := reportUnmarshalLoop_spec 65537 8 [] blocks raw
        (raw.length - 4) (by omega) (by omega) hl
      have hbs : blocks = bs := by simpa using hres
      subst hbs
      have hr : r = ⟨hd, readU32 raw 4, blocks, readU32 raw (raw.length - 4)⟩ := by
        injection h with h2
        exact h2.symm
      subst hr
      exact ⟨by omega, rfl, hmid, hend⟩

/-- Witness for the amended C2 at a minimal 12-byte packet with no
report blocks. -/
theorem C2_amended_unmarshal_structure_witness :
    12 ≤ ([0x80, 205, 0, 2, 0, 0, 0, 7, 0, 0, 0, 9] : List ℕ).length ∧
    (9 : ℕ) = readU32 [0x80, 205, 0, 2, 0, 0, 0, 7, 0, 0, 0, 9]
        (([0x80, 205, 0, 2, 0, 0, 0, 7, 0, 0, 0, 9] : List ℕ).length - 4) ∧
    (∀ k, k < ([] : List CCFeedbackReportBlock).length →
      (8 + ((([] : List CCFeedbackReportBlock).take k).map
          CCFeedbackReportBlock.Len).sum) % 65536
          < ([0x80, 205, 0, 2, 0, 0, 0, 7, 0, 0, 0, 9] : List ℕ).length - 4 ∧
      CCFeedbackReportBlock.unmarshal
          (([0x80, 205, 0, 2, 0, 0, 0, 7, 0, 0, 0, 9] : List ℕ).drop
            ((8 + ((([] : List CCFeedbackReportBlock).take k).map
              CCFeedbackReportBlock.Len).sum) % 65536))
        = .ok (([] : List CCFeedbackReportBlock).getD k ⟨0, 0, []⟩)) ∧
    ([0x80, 205, 0, 2, 0, 0, 0, 7, 0, 0, 0, 9] : List ℕ).length - 4
      ≤ (8 + ((([] : List CCFeedbackReportBlock).map CCFeedbackReportBlock.Len).sum))
          % 65536 :=
  C2_amended_unmarshal_structure [0x80, 205, 0, 2, 0, 0, 0, 7, 0, 0, 0, 9]
    ⟨⟨false, 0, 205, 2⟩, 7, [], 9⟩ (by decide) (by decide)

/-! ## Truncation safety support -/

theorem getD_drop_eq (l : List ℕ) (a i : ℕ) :
    (l.drop a).getD i 0 = l.getD (a + i) 0 := by
  rw [List.getD_eq_getElem?_getD, List.getD_eq_getElem?_getD, List.getElem?_drop]

theorem readU16_drop (l : List ℕ) (a i : ℕ) :
    readU16 (l.drop a) i = readU16 l (a + i) := by
  rw [readU16, readU16, getD_drop_eq, getD_drop_eq,
    show a + (i + 1) = a + i + 1 by omega]

theorem readU16_take (l : List ℕ) (m i : ℕ) (h : i + 2 ≤ m) :
    readU16 (l.take m) i = readU16 l i := by
  rw [readU16, readU16, getD_take_eq _ _ _ (by omega), getD_take_eq _ _ _ (by omega)]

theorem take_min (l : List ℕ) (n : ℕ) : l.take n = l.take (min n l.length) := by
  rcases Nat.le_total n l.length with h | h
  · rw [Nat.min_eq_left h]
  · rw [Nat.min_eq_right h, List.take_of_length_le h, List.take_length]

/-- `Len` depends only on the metric count. -/
theorem blockLen_congr (a b : CCFeedbackReportBlock)
    (h : a.MetricBlocks.length = b.MetricBlocks.length) : a.Len = b.Len := by
  rw [CCFeedbackReportBlock.Len, CCFeedbackReportBlock.Len, h]

/-- Every valid block occupies at least 8 wire bytes, so the block count
is bounded by an eighth of the total block-region size. -/
theorem sum_len_ge (blocks : List CCFeedbackReportBlock)
    (hall : ∀ blk ∈ blocks, BlockOK blk) :
    8 * blocks.length ≤ (blocks.map CCFeedbackReportBlock.Len).sum := by
  induction blocks with
  | nil => simp
  | cons blk rest ih =>
    simp only [List.map_cons, List.sum_cons, List.length_cons]
    have h8 : 8 ≤ blk.Len := by
      rw [blockLen_eq blk (hall blk (by simp)).1]
      omega
    have := ih (fun x hx => hall x (by simp [hx]))
    omega

/-- Exhaustive behaviour of the report-block decoder as a function of
the buffer length and the declared (in-ceiling) metric count. -/
theorem blockUnmarshal_cases (buf : List ℕ) (c : ℕ) (hc : readU16 buf 6 = c)
    (hc16 : c ≤ 16384) :
    (buf.length < 8 ∧ CCFeedbackReportBlock.unmarshal buf = .err .reportBlockLength) ∨
    (8 ≤ buf.length ∧ buf.length < 8 + 2 * c ∧
      CCFeedbackReportBlock.unmarshal buf = .err .incorrectNumReports) ∨
    (8 + 2 * c ≤ buf.length ∧ ∃ blk, CCFeedbackReportBlock.unmarshal buf = .ok blk
      ∧ blk.MetricBlocks.length = c) := by
  have hwrap : (8 + c * 2) % 65536 = 8 + 2 * c := by omega
  by_cases h8 : buf.length < 8
  · exact Or.inl ⟨h8, by rw [CCFeedbackReportBlock.unmarshal, if_pos h8]⟩
  · by_cases hlen : buf.length < 8 + 2 * c
    · refine Or.inr (Or.inl ⟨by omega, hlen, ?_⟩)
      simp only [CCFeedbackReportBlock.unmarshal, hc, hwrap]
      rw [if_neg h8, if_pos hlen]
    · refine Or.inr (Or.inr ⟨by omega, ?_⟩)
      simp only [CCFeedbackReportBlock.unmarshal, hc, hwrap]
      rw [if_neg h8, if_neg hlen]
      simp only [bind]
      obtain ⟨l, hl, hllen⟩ := unmarshalMetricLoop_count c 0 [] buf (by omega) (by omega)
      rw [hl, GoR.bind_ok]
      exact ⟨_, rfl, by simpa using hllen⟩

/-- Reading the 16-bit count field of the j-th block out of a marshalled
report recovers that block's metric count. -/
theorem reportWire_block_count (b : CCFeedbackReport)
    (hall : ∀ blk ∈ b.ReportBlocks, BlockOK blk)
    (done rest : List CCFeedbackReportBlock) (blk : CCFeedbackReportBlock)
    (hsplit : b.ReportBlocks = done ++ blk :: rest)
    (hn : blk.MetricBlocks.length ≤ 16384) :
    readU16 (reportWire b) (8 + ((done.map CCFeedbackReportBlock.Len).sum) + 6)
      = blk.MetricBlocks.length := by
  have hdone : ∀ x ∈ done, BlockOK x := by
    intro x hx
    exact hall x (by rw [hsplit]; exact List.mem_append_left _ hx)
  have hA : (headerWire b.Header ++ (u32be b.SenderSSRC
      ++ (((done.map blockWire).flatten) ++ (u32be blk.MediaSSRC
        ++ u16be blk.BeginSequence)))).length
      = 8 + ((done.map CCFeedbackReportBlock.Len).sum) + 6 := by
    simp only [List.length_append, headerWire, u32be, u16be, List.length_cons,
      List.length_nil, flatten_blockWire_length done hdone]
    omega
  have hshape : reportWire b
      = (headerWire b.Header ++ (u32be b.SenderSSRC
          ++ (((done.map blockWire).flatten) ++ (u32be blk.MediaSSRC
            ++ u16be blk.BeginSequence))))
        ++ (u16be (blk.MetricBlocks.length % 65536)
          ++ (((blk.MetricBlocks.map metricBytes).flatten
              ++ (if blk.MetricBlocks.length % 2 ≠ 0 then [0, 0] else []))
            ++ (((rest.map blockWire).flatten) ++ u32be b.ReportTimestamp))) := by
    rw [reportWire, hsplit]
    simp only [List.map_append, List.flatten_append, List.map_cons, List.flatten_cons,
      blockWire, List.append_assoc]
  rw [hshape, readU16_middle _ _ _ _ hA]
  omega

/-- Parsing any truncation of a marshalled report: starting from any
real block boundary, the block-reading loop either completes or stops
with a structural length error — it never panics and never diverges. -/
theorem c4_loop_aux (b : CCFeedbackReport) (hok : ReportOK b) (m : ℕ)
    (hm : m ≤ (reportWire b).length) :
    ∀ (rest done acc : List CCFeedbackReportBlock) (fuel : ℕ),
      b.ReportBlocks = done ++ rest → rest.length < fuel →
      (∃ res, reportUnmarshalLoop ((reportWire b).take m) (m - 4) fuel
          (8 + ((done.map CCFeedbackReportBlock.Len).sum)) acc = .ok res) ∨
      (∃ e, reportUnmarshalLoop ((reportWire b).take m) (m - 4) fuel
          (8 + ((done.map CCFeedbackReportBlock.Len).sum)) acc = .err e ∧
        (e = Err.reportBlockLength ∨ e = Err.incorrectNumReports)) := by
  obtain ⟨hcnt, hall, hsum⟩ := hok
  have hplen : (reportWire b).length
      = 12 + ((b.ReportBlocks.map CCFeedbackReportBlock.Len).sum) := by
    simp only [reportWire, List.length_append, headerWire, u32be, List.length_cons,
      List.length_nil, flatten_blockWire_length _ hall]
    omega
  have htlen : ((reportWire b).take m).length = m := by
    simp only [List.length_take]
    omega
  intro rest
  induction rest with
  | nil =>
    intro done acc fuel hsplit hfuel
    have hdone : done = b.ReportBlocks := by simpa using hsplit.symm
    match fuel, hfuel with
    | fuel + 1, _ =>
      rw [reportUnmarshalLoop, if_neg (by rw [hdone]; omega)]
      exact Or.inl ⟨acc, rfl⟩
  | cons blk rest ih =>
    intro done acc fuel hsplit hfuel
    have hsumsplit : (b.ReportBlocks.map CCFeedbackReportBlock.Len).sum
        = ((done.map CCFeedbackReportBlock.Len).sum) + blk.Len
          + ((rest.map CCFeedbackReportBlock.Len).sum) := by
      rw [hsplit]
      simp only [List.map_append, List.sum_append, List.map_cons, List.sum_cons]
      omega
    have hmem : blk ∈ b.ReportBlocks := by
      rw [hsplit]
      exact List.mem_append_right _ (by simp)
    have hbok : BlockOK blk := hall blk hmem
    match fuel, hfuel with
    | fuel + 1, hfuel =>
      by_cases hlt : 8 + ((done.map CCFeedbackReportBlock.Len).sum) < m - 4
      · have hgs : goSlice ((reportWire b).take m)
            (8 + ((done.map CCFeedbackReportBlock.Len).sum))
            ((reportWire b).take m).length
            = .ok (((reportWire b).take m).drop
                (8 + ((done.map CCFeedbackReportBlock.Len).sum))) := by
          rw [goSlice, if_pos ⟨by rw [htlen]; omega, le_refl _⟩,
            List.take_of_length_le (by simp)]
        have hstep : reportUnmarshalLoop ((reportWire b).take m) (m - 4) (fuel + 1)
            (8 + ((done.map CCFeedbackReportBlock.Len).sum)) acc
            = match CCFeedbackReportBlock.unmarshal (((reportWire b).take m).drop
                (8 + ((done.map CCFeedbackReportBlock.Len).sum))) with
              | .panic => .panic
              | .loops => .loops
              | .err e => .err e
              | .ok blk2 => reportUnmarshalLoop ((reportWire b).take m) (m - 4) fuel
                  ((8 + ((done.map CCFeedbackReportBlock.Len).sum) + blk2.Len) % 65536)
                  (acc ++ [blk2]) := by
          rw [reportUnmarshalLoop, if_pos hlt, hgs]
        by_cases hsub8 : m - (8 + ((done.map CCFeedbackReportBlock.Len).sum)) < 8
        · have hbu : CCFeedbackReportBlock.unmarshal (((reportWire b).take m).drop
              (8 + ((done.map CCFeedbackReportBlock.Len).sum)))
              = .err .reportBlockLength := by
            rw [CCFeedbackReportBlock.unmarshal,
              if_pos (by simp only [List.length_drop, htlen]; omega)]
          rw [hstep, hbu]
          exact Or.inr ⟨_, rfl, Or.inl rfl⟩
        · have hcread : readU16 (((reportWire b).take m).drop
              (8 + ((done.map CCFeedbackReportBlock.Len).sum))) 6
              = blk.MetricBlocks.length := by
            rw [readU16_drop, readU16_take _ _ _ (by omega),
              reportWire_block_count b hall done rest blk hsplit hbok.1]
          rcases blockUnmarshal_cases _ _ hcread hbok.1 with
            ⟨hl8, hbu⟩ | ⟨_, _, hbu⟩ | ⟨_, blk2, hbu, hbcount⟩
          · rw [List.length_drop, htlen] at hl8
            omega
          · rw [hstep, hbu]
            exact Or.inr ⟨_, rfl, Or.inr rfl⟩
          · have hlen2 : blk2.Len = blk.Len := blockLen_congr blk2 blk hbcount
            have hsum2 : (((done ++ [blk]).map CCFeedbackReportBlock.Len).sum)
                = ((done.map CCFeedbackReportBlock.Len).sum) + blk.Len := by
              simp
            have hoffeq : (8 + ((done.map CCFeedbackReportBlock.Len).sum) + blk2.Len)
                % 65536
                = 8 + (((done ++ [blk]).map CCFeedbackReportBlock.Len).sum) := by
              rw [hlen2, hsum2]
              have h1 : 8 + (((done.map CCFeedbackReportBlock.Len).sum) + blk.Len)
                  < 65536 := by
                omega
              omega
            have hrec := ih (done ++ [blk]) (acc ++ [blk2]) fuel
              (by rw [hsplit, List.append_assoc]; rfl) (by simpa using hfuel)
            rw [hstep, hbu]
            show (∃ res, reportUnmarshalLoop ((reportWire b).take m) (m - 4) fuel
                ((8 + ((done.map CCFeedbackReportBlock.Len).sum) + blk2.Len) % 65536)
                (acc ++ [blk2]) = .ok res) ∨
              (∃ e, reportUnmarshalLoop ((reportWire b).take m) (m - 4) fuel
                ((8 + ((done.map CCFeedbackReportBlock.Len).sum) + blk2.Len) % 65536)
                (acc ++ [blk2]) = .err e ∧
                (e = Err.reportBlockLength ∨ e = Err.incorrectNumReports))
            rw [hoffeq]
            exact hrec
      · rw [reportUnmarshalLoop, if_neg hlt]
        exact Or.inl ⟨acc, rfl⟩

/-- C4 counterexample: truncating the valid marshalled 24-byte packet to
21 bytes cuts through the required trailing timestamp field (bytes
20–24), yet Unmarshal succeeds (reinterpreting earlier bytes as the
timestamp) instead of returning a structural error. -/
theorem C4_counterexample_truncation_crossing_timestamp_succeeds :
    CCFeedbackReport.Marshal
        ⟨⟨false, 11, 205, 5⟩, 0x01020304, [⟨0x09090909, 5, [⟨true, 2, 7⟩]⟩], 0xAABBCCDD⟩
      = .ok [139, 205, 0, 5, 1, 2, 3, 4, 9, 9, 9, 9, 0, 5, 0, 1,
             192, 7, 0, 0, 170, 187, 204, 221] ∧
    CCFeedbackReport.Unmarshal
        (([139, 205, 0, 5, 1, 2, 3, 4, 9, 9, 9, 9, 0, 5, 0, 1,
           192, 7, 0, 0, 170, 187, 204, 221] : List ℕ).take 21)
      = .ok ⟨⟨false, 11, 205, 5⟩, 0x01020304, [⟨0x09090909, 5, [⟨true, 2, 7⟩]⟩],
          0x070000AA⟩ ∧
    (20 : ℕ) < 21 ∧ (21 : ℕ) < 24 := by
  exact ⟨by decide, by decide, by decide, by decide⟩

/-- C4 amended: truncating a valid marshalled CCFeedbackReport packet by
any number of trailing bytes never makes Unmarshal read out of bounds,
panic, or diverge: every truncation either fails with one of the
structural errors PacketTooShort, ReportBlockLength or
IncorrectNumReports, or decodes successfully (a truncation that crosses
a required field boundary may still succeed, with the shortened buffer
reinterpreted, as the counterexample shows). -/
theorem C4_amended_truncation_never_panics (b : CCFeedbackReport) (hok : ReportOK b)
    (p : List ℕ) (hp : b.Marshal = .ok p) (n : ℕ) :
    (∃ r, CCFeedbackReport.Unmarshal (p.take n) = .ok r) ∨
    (∃ e, CCFeedbackReport.Unmarshal (p.take n) = .err e ∧
      (e = Err.packetTooShort ∨ e = Err.reportBlockLength
        ∨ e = Err.incorrectNumReports)) := by
  obtain ⟨hcnt, hall, hsum⟩ := hok
  have hpw : p = reportWire b := by
    rw [reportMarshal_eq b ⟨hcnt, hall, hsum⟩] at hp
    injection hp with h2
    exact h2.symm
  subst hpw
  have hplen : (reportWire b).length
      = 12 + ((b.ReportBlocks.map CCFeedbackReportBlock.Len).sum) := by
    simp only [reportWire, List.length_append, headerWire, u32be, List.length_cons,
      List.length_nil, flatten_blockWire_length _ hall]
    omega
  rw [take_min (reportWire b) n]
  have hmle : min n (reportWire b).length ≤ (reportWire b).length :=
    Nat.min_le_right _ _
  have htlen : ((reportWire b).take (min n (reportWire b).length)).length
      = min n (reportWire b).length := by
    simp only [List.length_take]
    omega
  by_cases hm12 : min n (reportWire b).length < 12
  · refine Or.inr ⟨.packetTooShort, ?_, Or.inl rfl⟩
    rw [CCFeedbackReport.Unmarshal, if_pos (by rw [htlen]; exact hm12)]
  · have hb0 : ((reportWire b).take (min n (reportWire b).length)).getD 0 0
        = 2 <<< 6 ||| (if b.Header.Padding then 1 else 0) <<< 5 ||| b.Header.Count := by
      rw [getD_take_eq _ _ _ (by omega), reportWire,
        List.getD_append _ _ _ _ (by simp [headerWire])]
      simp [headerWire, List.getD]
    have hver : ((reportWire b).take (min n (reportWire b).length)).getD 0 0 >>> 6
        = 2 := by
      rw [hb0, headerWire_byte0 b.Header hcnt, Nat.shiftRight_eq_div_pow]
      have hpadb : (if b.Header.Padding then (32 : ℕ) else 0) ≤ 32 := by
        split
        · omega
        · omega
      omega
    obtain ⟨hd, hhd⟩ := header_unmarshal_ok _ (by omega) hver
    rw [CCFeedbackReport.Unmarshal, if_neg (by rw [htlen]; omega)]
    simp only [bind, hhd, GoR.bind_ok, htlen]
    have htsmod : (min n (reportWire b).length - 4) % 65536
        = min n (reportWire b).length - 4 :=
      Nat.mod_eq_of_lt (by omega)
    rw [htsmod]
    have hblen : b.ReportBlocks.length < 65537 := by
      have h8 := sum_len_ge b.ReportBlocks hall
      omega
    rcases c4_loop_aux b ⟨hcnt, hall, hsum⟩ (min n (reportWire b).length) hmle
        b.ReportBlocks [] [] 65537 (by simp) hblen with ⟨res, hres⟩ | ⟨e, he, hee⟩
    · have hres8 : reportUnmarshalLoop
          ((reportWire b).take (min n (reportWire b).length))
          (min n (reportWire b).length - 4) 65537 8 [] = .ok res := by
        have h0 : (8 : ℕ) + ((([] : List CCFeedbackReportBlock).map
            CCFeedbackReportBlock.Len).sum) = 8 := by simp
        rw [← h0]
        exact hres
      rw [hres8, GoR.bind_ok]
      exact Or.inl ⟨_, rfl⟩
    · have hres8 : reportUnmarshalLoop
          ((reportWire b).take (min n (reportWire b).length))
          (min n (reportWire b).length - 4) 65537 8 [] = .err e := by
        have h0 : (8 : ℕ) + ((([] : List CCFeedbackReportBlock).map
            CCFeedbackReportBlock.Len).sum) = 8 := by simp
        rw [← h0]
        exact he
      rw [hres8]
      exact Or.inr ⟨e, by simp [GoR.bind], Or.inr hee⟩

/-- Witness for the amended C4: the 24-byte packet of the counterexample,
truncated to 21 bytes, decodes without panic. -/
theorem C4_amended_truncation_never_panics_witness :
    (∃ r, CCFeedbackReport.Unmarshal
        (([139, 205, 0, 5, 1, 2, 3, 4, 9, 9, 9, 9, 0, 5, 0, 1,
           192, 7, 0, 0, 170, 187, 204, 221] : List ℕ).take 21) = .ok r) ∨
    (∃ e, CCFeedbackReport.Unmarshal
        (([139, 205, 0, 5, 1, 2, 3, 4, 9, 9, 9, 9, 0, 5, 0, 1,
           192, 7, 0, 0, 170, 187, 204, 221] : List ℕ).take 21) = .err e ∧
      (e = Err.packetTooShort ∨ e = Err.reportBlockLength
        ∨ e = Err.incorrectNumReports)) :=
  C4_amended_truncation_never_panics
    ⟨⟨false, 11, 205, 5⟩, 0x01020304, [⟨0x09090909, 5, [⟨true, 2, 7⟩]⟩], 0xAABBCCDD⟩
    (by decide)
    [139, 205, 0, 5, 1, 2, 3, 4, 9, 9, 9, 9, 0, 5, 0, 1,
     192, 7, 0, 0, 170, 187, 204, 221] (by decide) 21

end Rtcp
